import Mathlib

namespace GeoCleaner

/-!
# Verification of the GEO-metadata-cleaner entity-linking core

Shallow embedding of the core of `geo_cleaner` (status policy, negation
detector, regex extractor, candidate retrieval, reranking, linking with
deduplication, exporter grouping, text normalization, vector-index build)
together with theorems settling the specification claims.

Conventions of the embedding:
* Python `str` values are modelled as `List Char` (`Str`); the character
  predicates (`isalnum`, `lower`, word characters) are modelled on the
  ASCII fragment, where Unicode NFKC is the identity.
* Python `float` scores are modelled as rationals (`ℚ`): every operation
  the code performs on scores is an order comparison or a subtraction, so
  the branch structure is that of an ordered field.
* Python dicts are modelled as insertion-ordered association lists.
* A pydantic constructor is modelled by a total function performing the
  validator's normalization; the validator's *raising* checks are captured
  by a validity predicate carried as a hypothesis where needed.
-/

/-- Python strings, modelled as lists of characters. -/
abbrev Str := List Char

/-- Python slice `s[a:b]` for natural `a`, `b`: clamps past the end and
yields `[]` when `a ≥ b`. -/
def pySlice (s : Str) (a b : Nat) : Str := (s.take b).drop a

/-- First-match association-list lookup (Python `dict` access). -/
def assocFind {κ β : Type} [DecidableEq κ] (l : List (κ × β)) (k : κ) : Option β :=
  match l with
  | [] => none
  | (k', v) :: t => if k' = k then some v else assocFind t k

/-- Association lookup with a default (Python `dict.get(k, d)`). -/
def assocFindD {κ β : Type} [DecidableEq κ] (l : List (κ × β)) (k : κ) (d : β) : β :=
  (assocFind l k).getD d

/-! ## `contracts.py`: the data model -/

/-- `contracts.EntityStatus`. -/
inductive EntityStatus : Type
  | RESOLVED
  | AMBIGUOUS
  | UNRESOLVED
  | REJECTED
deriving DecidableEq, Repr

/-- `contracts.FieldOffsets` (the span constraints of the pydantic
validator are tracked as hypotheses where relevant). -/
structure FieldOffsets : Type where
  field_key : Str
  start : Nat
  stop : Nat
deriving DecidableEq, Repr

/-- `contracts.Mention`. -/
structure Mention : Type where
  label : Str
  surface_form : Str
  source_field : Str
  start : Nat
  stop : Nat
  extractor_conf : ℚ
deriving DecidableEq, Repr

/-- `Mention.offsets()`. -/
def Mention.offsets (m : Mention) : FieldOffsets :=
  { field_key := m.source_field, start := m.start, stop := m.stop }

/-- `contracts.Candidate`. -/
structure Candidate : Type where
  candidate_id : Str
  candidate_label : Str
  score : ℚ
  source : Option Str := none
  definition : Option Str := none
deriving DecidableEq, Repr

/-- `contracts.LinkedEntity` (plain record; construction through the
pydantic validator is `mkLinkedEntity` below). -/
structure LinkedEntity : Type where
  label : Str
  surface_form : Str
  source_field : Str
  offsets : FieldOffsets
  status : EntityStatus
  linked_id : Option Str := none
  score : Option ℚ := none
  margin : Option ℚ := none
  top_candidates : List Candidate := []
  provenances : List FieldOffsets := []
deriving DecidableEq, Repr

/-- The provenance normalization performed by
`LinkedEntity._validate_policy`: an empty provenance list becomes
`[offsets]`, and `offsets` is inserted at position 0 when absent
(an already present `offsets` is left where it is). -/
def fixProvenances (offsets : FieldOffsets) (prov : List FieldOffsets) :
    List FieldOffsets :=
  if prov = [] then [offsets]
  else if offsets ∈ prov then prov
  else offsets :: prov

/-- Constructing a `LinkedEntity` through the pydantic validator
(`_validate_policy`): the provenance list is normalized.  The validator's
raising checks are the predicate `LEValid`. -/
def mkLinkedEntity (e : LinkedEntity) : LinkedEntity :=
  { e with provenances := fixProvenances e.offsets e.provenances }

/-- Python truthiness of an `Optional[str]`. -/
def optStrTruthy : Option Str → Bool
  | none => false
  | some s => s ≠ []

/-- The checks of `LinkedEntity._validate_policy` that raise, plus the
guarantee the validator establishes: every `LinkedEntity` value alive in
the Python program satisfies this. -/
def LEValid (e : LinkedEntity) : Prop :=
  (e.status = .RESOLVED → optStrTruthy e.linked_id = true) ∧
  e.offsets.field_key = e.source_field ∧
  e.offsets ∈ e.provenances

instance (e : LinkedEntity) : Decidable (LEValid e) := by
  unfold LEValid; infer_instance

/-! ## `status_policy.py` -/

/-- `status_policy.PolicyConfig`. -/
structure PolicyConfig : Type where
  tau : ℚ := 7/10
  delta : ℚ := 1/10
  top_n : Nat := 5
deriving DecidableEq, Repr

/-- `status_policy.assign_status`. -/
def assignStatus (best margin tau delta : ℚ) : EntityStatus :=
  if best ≥ tau ∧ margin ≥ delta then .RESOLVED
  else if best ≥ tau ∧ margin < delta then .AMBIGUOUS
  else .UNRESOLVED

/-- `status_policy.compute_margin`. -/
def computeMargin (sortedScores : List ℚ) : ℚ :=
  match sortedScores with
  | [] => 0
  | [_] => 1
  | a :: b :: _ => a - b

/-! ## `ontology_bundle.normalize_text`

`normalize_text` applies NFKC, lowercases, maps every non-alphanumeric
character to a space, then collapses whitespace (`" ".join(s.split())`).
The NFKC step and the character classes are modelled on the ASCII
fragment, where NFKC is the identity; the NFKC and lowercasing steps are
kept as parameters of `pyNormalize` so the shape of the pipeline is
explicit. After the space-mapping step the only whitespace character left
is `' '`, so `str.split()` is faithfully modelled as splitting on `' '`. -/

/-- Fueled worker for `pyWords`; the fuel strictly exceeds the string
length at every call, so the `0` case is never reached. -/
def pyWordsF : Nat → Str → List Str
  | 0, _ => []
  | n + 1, s =>
      match s.dropWhile (· == ' ') with
      | [] => []
      | c :: r => (c :: r.takeWhile (· != ' ')) :: pyWordsF n (r.dropWhile (· != ' '))

/-- Python `s.split()` on a string whose only whitespace is `' '`:
the maximal nonempty runs of non-space characters. -/
def pyWords (s : Str) : List Str := pyWordsF (s.length + 1) s

/-- Python `" ".join(ws)`. -/
def pyJoinSpace : List Str → Str
  | [] => []
  | [w] => w
  | w :: v :: t => w ++ ' ' :: pyJoinSpace (v :: t)

/-- Python `" ".join(s.split())`. -/
def collapseSpaces (s : Str) : Str := pyJoinSpace (pyWords s)

/-- The per-character step of `normalize_text`: keep alphanumerics,
replace everything else by a space. -/
def mapNonAlnum (alnum : Char → Bool) (s : Str) : Str :=
  s.map (fun c => if alnum c then c else ' ')

/-- The pipeline of `normalize_text`, parametric in the NFKC and
lowercasing primitives and the alphanumeric character class. -/
def pyNormalize (nfkc lower : Str → Str) (alnum : Char → Bool) (s : Str) : Str :=
  collapseSpaces (mapNonAlnum alnum (lower (nfkc s)))

/-- Python `str.lower`, character by character (ASCII fragment). -/
def asciiLower (s : Str) : Str := s.map Char.toLower

/-- Python `str.isalnum` on the ASCII fragment. -/
def pyIsAlnum (c : Char) : Bool := c.isAlpha || c.isDigit

/-- `ontology_bundle.normalize_text` on the ASCII fragment (where Unicode
NFKC is the identity). -/
def normalizeText (s : Str) : Str := pyNormalize id asciiLower pyIsAlnum s

/-! Supporting lemmas for the normalizer. -/

/-! ## `negation.py`

`is_negated` inspects a window of the mention's source field for the
compiled patterns `_NEG_PATTERNS`, each of the shape `\bTEXT\b` with the
`re.IGNORECASE` flag.  The regex engine is embedded as an executable
matcher: a pattern matches at a position when the lowered window slice
equals the pattern text and both ends sit at a `\b` word boundary. -/

/-- Regex `\w` (word character) on the ASCII fragment. -/
def isWordChar (c : Char) : Bool := pyIsAlnum c || c == '_'

/-- The literal texts of the five compiled patterns `_NEG_PATTERNS`. -/
def negPatterns : List Str :=
  ["no".toList, "not".toList, "without".toList,
   "negative for".toList, "no evidence of".toList]

/-- A match of pattern text `p` at position `i` of `w` under
`re.IGNORECASE`, with `\b` at both ends of the pattern. -/
def matchAtB (p w : Str) (i : Nat) : Bool :=
  decide (i + p.length ≤ w.length) &&
  ((pySlice w i (i + p.length)).map Char.toLower == p) &&
  (decide (i = 0) || !isWordChar (w.getD (i - 1) ' ')) &&
  (decide (i + p.length = w.length) || !isWordChar (w.getD (i + p.length) ' '))

/-- `pattern.search(window)` as a Boolean: some position matches. -/
def searchB (p w : Str) : Bool :=
  (List.range (w.length + 1)).any (matchAtB p w)

/-- `negation.NegationConfig`. -/
structure NegationConfig : Type where
  window_chars : Nat := 60
deriving DecidableEq, Repr

/-- `negation.is_negated`. -/
def isNegated (raw_fields : List (Str × Str)) (m : Mention)
    (cfg : NegationConfig) : Bool :=
  if assocFindD raw_fields m.source_field [] = [] then false
  else
    negPatterns.any fun p =>
      searchB p
        (pySlice (assocFindD raw_fields m.source_field [])
          (m.start - cfg.window_chars)
          (min (assocFindD raw_fields m.source_field []).length
            (m.stop + cfg.window_chars)))

/-- The window substring named by the specification:
`raw_fields[m.source_field][max(0, m.start−W) : min(len, m.end+W)]`. -/
def specWindow (text : Str) (m : Mention) (W : Nat) : Str :=
  pySlice text (m.start - W) (min text.length (m.stop + W))

/-- The specification's reading of "the window contains a
word-boundary-anchored, case-insensitive occurrence of `p`". -/
def ContainsAnchored (p w : Str) : Prop :=
  ∃ i, i + p.length ≤ w.length ∧
    (∀ j < p.length, Char.toLower (w.getD (i + j) ' ') = p.getD j ' ') ∧
    (i = 0 ∨ isWordChar (w.getD (i - 1) ' ') = false) ∧
    (i + p.length = w.length ∨ isWordChar (w.getD (i + p.length) ' ') = false)

/-! ## Python `sorted` with a key function

Python's `sorted(xs, key=k)` is the stable sort by `k(x) ≤ k(y)`; for a
total preorder the stable sort is unique, so insertion sort models it
exactly. -/

/-- The ordering induced by a sort key. -/
def keyLe {α κ : Type} [LinearOrder κ] (k : α → κ) (a b : α) : Prop :=
  k a ≤ k b

instance {α κ : Type} [LinearOrder κ] (k : α → κ) : DecidableRel (keyLe k) :=
  fun a b => inferInstanceAs (Decidable (k a ≤ k b))

instance {α κ : Type} [LinearOrder κ] (k : α → κ) : IsTotal α (keyLe k) :=
  ⟨fun a b => le_total (k a) (k b)⟩

instance {α κ : Type} [LinearOrder κ] (k : α → κ) : IsTrans α (keyLe k) :=
  ⟨fun _ _ _ hab hbc => le_trans hab hbc⟩

/-- Python `sorted(xs, key=k)`. -/
def pySortedBy {α κ : Type} [LinearOrder κ] (k : α → κ) (l : List α) :
    List α :=
  List.insertionSort (keyLe k) l

/-! ## `extractor.py` (`RegexExtractor`)

A compiled regular expression is embedded as its match enumerator: the
function giving, for a field text, the list of `(start, end)` spans of
`finditer` in order. -/

/-- The sort key of `extractor._sorted_mentions`:
`(m.source_field, m.start, m.end, m.label, m.surface_form)`. -/
def mentionKey (m : Mention) : Lex (Str × Lex (Nat × Lex (Nat × Lex (Str × Str)))) :=
  toLex (m.source_field, toLex (m.start, toLex (m.stop,
    toLex (m.label, m.surface_form))))

/-- `RegexExtractor.extract`: iterate the raw fields, skip empty texts,
run each label's pattern, drop empty matches, and sort the mentions. -/
def regexExtract (patterns : List (Str × (Str → List (Nat × Nat))))
    (conf : ℚ) (raw_fields : List (Str × Str)) : List Mention :=
  pySortedBy mentionKey
    (raw_fields.flatMap fun fkt =>
      if fkt.2 = [] then []
      else
        patterns.flatMap fun lrx =>
          (lrx.2 fkt.2).filterMap fun se =>
            if se.1 = se.2 then none
            else
              some
                { label := lrx.1
                  surface_form := pySlice fkt.2 se.1 se.2
                  source_field := fkt.1
                  start := se.1
                  stop := se.2
                  extractor_conf := conf })

/-! ## `reranker.py`

The cross-encoder model call is embedded as a scoring function on
(query, candidate-text) pairs.  Both rerankers end with the same three
expressions computing `best`, `best_score` and `margin` from the sorted,
rescored `top` list; `rerankFinish` is that shared tail, written as the
case analysis those expressions perform. -/

/-- `reranker.RerankResult`. -/
structure RerankResult : Type where
  best : Option Candidate
  best_score : ℚ
  margin : ℚ
  top : List Candidate
deriving DecidableEq, Repr

/-- The sort key `(-score, candidate_id)` applied to a rescored pair. -/
def scoredKey (sc : ℚ × Candidate) : Lex (ℚ × Str) :=
  toLex (-sc.1, sc.2.candidate_id)

/-- `best = top[0] if top else None; best_score = best.score if best else
0.0; margin = best_score - top[1].score if len(top) > 1 else (1.0 if best
else 0.0)`. -/
def rerankFinish (top : List Candidate) : RerankResult :=
  match top with
  | [] => { best := none, best_score := 0, margin := 0, top := [] }
  | [b] => { best := some b, best_score := b.score, margin := 1, top := [b] }
  | b :: b2 :: rest =>
      { best := some b, best_score := b.score, margin := b.score - b2.score,
        top := b :: b2 :: rest }

/-- Python `o or default` for an optional string. -/
def orStrDefault (o : Option Str) (d : Str) : Str :=
  match o with
  | none => d
  | some s => if s = [] then d else s

/-- `DummyReranker.rerank`: reuse the incoming scores (`score` is a
required float of `Candidate`, so the `0.5` default for a missing score
is unreachable), sort by `(-score, candidate_id)`, rescore, and keep an
existing `source` (`c.source or "rerank"`). -/
def dummyRerank (mention_text context : Str) (candidates : List Candidate) :
    RerankResult :=
  rerankFinish
    ((pySortedBy scoredKey (candidates.map fun c => (c.score, c))).map fun sc =>
      { sc.2 with
          score := sc.1
          source := some (orStrDefault sc.2.source "rerank".toList) })

/-- Whitespace for Python `str.strip` (ASCII fragment). -/
def pyIsSpace (c : Char) : Bool :=
  c == ' ' || c == '\n' || c == '\t' || c == '\r'

/-- Python `s.strip()`. -/
def pyStrip (s : Str) : Str :=
  ((s.dropWhile pyIsSpace).reverse.dropWhile pyIsSpace).reverse

/-- `CrossEncoderReranker.rerank` with the model embedded as `predict`:
empty input short-circuits; otherwise score the (query, rhs) pairs, sort
by `(-score, candidate_id)`, rescore with source "rerank". -/
def ceRerank (predict : Str × Str → ℚ) (mention_text context : Str)
    (candidates : List Candidate) : RerankResult :=
  if candidates = [] then
    { best := none, best_score := 0, margin := 0, top := [] }
  else
    rerankFinish
      ((pySortedBy scoredKey
        (candidates.map fun c =>
          (predict
            (pyStrip (mention_text ++ "\n\nCONTEXT:\n".toList ++ context),
              match c.definition with
              | some d =>
                  if d ≠ [] then
                    c.candidate_label ++ "\n\nDEF:\n".toList ++ d
                  else c.candidate_label
              | none => c.candidate_label), c))).map fun sc =>
        { sc.2 with score := sc.1, source := some "rerank".toList })

/-- Concrete candidates for witnesses (spec scenario 2). -/
def sampleCandA : Candidate :=
  { candidate_id := "TOY:0001".toList,
    candidate_label := "Lung cancer".toList, score := 4/5 }

/-- Concrete candidates for witnesses (spec scenario 2). -/
def sampleCandB : Candidate :=
  { candidate_id := "TOY:0002".toList,
    candidate_label := "Breast cancer".toList, score := 79/100 }

/-! ## Association-list toolkit (Python `dict` operations) -/

/-- Replace the value bound to `k` (Python `merged[k] = v` on an existing
key: the entry keeps its position). -/
def assocReplace {κ β : Type} [DecidableEq κ] (l : List (κ × β)) (k : κ)
    (v : β) : List (κ × β) :=
  l.map fun p => if p.1 = k then (k, v) else p

/-- Worker for `dedupKeepFirst`, carrying the set of already seen
elements. -/
def dedupKeepFirstAux {α : Type} [DecidableEq α] (seen : List α) :
    List α → List α
  | [] => []
  | a :: t =>
      if a ∈ seen then dedupKeepFirstAux seen t
      else a :: dedupKeepFirstAux (seen ++ [a]) t

/-- Python `list(dict.fromkeys(xs))`: keep the first occurrence of each
element, in order. -/
def dedupKeepFirst {α : Type} [DecidableEq α] (l : List α) : List α :=
  dedupKeepFirstAux [] l

/-! ## `ontology_bundle.OntologyStore` and `candidate_retrieval.py`

The store is embedded with the three fields `retrieve` reads:
insertion-ordered concept and lexical maps.  FAISS and the embedder are
external; `bundle.vector_search`'s output enters `retrieve` as an
optional candidate list (`none` models `embedder is None`). -/

/-- `ontology_bundle.Concept`. -/
structure Concept : Type where
  concept_id : Str
  label : Str
  synonyms : List Str := []
  definition : Option Str := none
deriving DecidableEq, Repr

/-- `ontology_bundle.OntologyStore`, restricted to the state read by
lookup and retrieval (the path and version-hash bookkeeping is I/O). -/
structure OntologyStore : Type where
  name : Str
  concepts : List (Str × Concept) := []
  lexical_exact : List (Str × List Str) := []
  lexical_norm : List (Str × List Str) := []
deriving DecidableEq, Repr

/-- `OntologyStore.lookup_exact`:
`list(dict.fromkeys(self.lexical_exact.get(s, [])))`. -/
def lookupExact (st : OntologyStore) (s : Str) : List Str :=
  dedupKeepFirst (assocFindD st.lexical_exact s [])

/-- `OntologyStore.lookup_normalized`:
`list(dict.fromkeys(self.lexical_norm.get(normalize_text(s), [])))`. -/
def lookupNormalized (st : OntologyStore) (s : Str) : List Str :=
  dedupKeepFirst (assocFindD st.lexical_norm (normalizeText s) [])

/-- `candidate_retrieval.RetrievalConfig`. -/
structure RetrievalConfig : Type where
  top_k : Nat := 10
  lexical_exact_score : ℚ := 1
  lexical_norm_score : ℚ := 9/10
  vector_min_score : ℚ := -1
  include_definitions : Bool := true
deriving DecidableEq, Repr

/-- The lexical `Candidate` built for `cid` from its concept: score and
source as passed, definition attached when `include_definitions`. -/
def lexCandidate (cfg : RetrievalConfig) (src : Str) (scr : ℚ) (cid : Str)
    (cobj : Concept) : Candidate :=
  { candidate_id := cid
    candidate_label := cobj.label
    definition := if cfg.include_definitions then cobj.definition else none
    score := scr
    source := some src }

/-- Build one `(cid, Candidate)` entry of the merged map; `none` models
the `KeyError` of `store.concepts[cid]` on a dangling id. -/
def mkLexCand (st : OntologyStore) (cfg : RetrievalConfig) (src : Str)
    (scr : ℚ) (cid : Str) : Option (Str × Candidate) :=
  (assocFind st.concepts cid).map fun cobj =>
    (cid, lexCandidate cfg src scr cid cobj)

/-- Run a fallible builder over a list, failing when any element fails
(the Python `for` loop whose body may raise `KeyError`). -/
def buildAll {α β : Type} (f : α → Option β) : List α → Option (List β)
  | [] => some []
  | a :: t =>
      match f a with
      | none => none
      | some b =>
          match buildAll f t with
          | none => none
          | some bs => some (b :: bs)

/-- Stages (1) and (2) of `CandidateRetriever.retrieve`: the merged map
after the lexical-exact inserts and the lexical-normalized inserts (the
latter skipping concept ids already present). -/
def mergedLex (st : OntologyStore) (cfg : RetrievalConfig) (mention : Str) :
    Option (List (Str × Candidate)) := do
  let exCands ← buildAll
    (mkLexCand st cfg "lexical_exact".toList cfg.lexical_exact_score)
    (lookupExact st mention)
  let normCands ← buildAll
    (mkLexCand st cfg "lexical_norm".toList cfg.lexical_norm_score)
    ((lookupNormalized st mention).filter
      (fun cid => !(decide (cid ∈ exCands.map Prod.fst))))
  pure (exCands ++ normCands)

/-- Stage (3) of `CandidateRetriever.retrieve`, one vector candidate:
skip below `vector_min_score`; on a concept id already present bump the
stored score to the max (in place, keeping label/source/definition);
otherwise append a new candidate with source "vector". -/
def applyVectorCand (st : OntologyStore) (cfg : RetrievalConfig)
    (acc : List (Str × Candidate)) (vc : Candidate) :
    List (Str × Candidate) :=
  if vc.score < cfg.vector_min_score then acc
  else
    match assocFind acc vc.candidate_id with
    | some c =>
        if c.score < vc.score then
          assocReplace acc vc.candidate_id { c with score := vc.score }
        else acc
    | none =>
        acc ++ [(vc.candidate_id,
          { candidate_id := vc.candidate_id
            candidate_label := vc.candidate_label
            definition :=
              match assocFind st.concepts vc.candidate_id with
              | some cobj =>
                  if cfg.include_definitions then cobj.definition else none
              | none => none
            score := vc.score
            source := some "vector".toList })]

/-- The sort key `(-score, candidate_id)` of the final ordering. -/
def candSortKey (c : Candidate) : Lex (ℚ × Str) :=
  toLex (-c.score, c.candidate_id)

/-- `CandidateRetriever.retrieve`: lexical merge, optional vector merge,
then the top-k of the `(-score, candidate_id)` ordering. -/
def retrieve (st : OntologyStore) (cfg : RetrievalConfig)
    (vecResult : Option (List Candidate)) (mention : Str) :
    Option (List Candidate) := do
  let ml ← mergedLex st cfg mention
  let merged :=
    match vecResult with
    | none => ml
    | some vcs => vcs.foldl (applyVectorCand st cfg) ml
  pure ((pySortedBy candSortKey (merged.map Prod.snd)).take cfg.top_k)

/-- A two-concept store for the retrieval witness. -/
def toyConceptA : Concept :=
  { concept_id := "T1".toList, label := "alpha".toList,
    definition := some "da".toList }

/-- A two-concept store for the retrieval witness. -/
def toyConceptB : Concept :=
  { concept_id := "T2".toList, label := "beta".toList }

/-- A two-concept store for the retrieval witness: "q" hits T1 exactly
and T2 through the normalized map. -/
def toyStore : OntologyStore :=
  { name := "toy".toList,
    concepts := [("T1".toList, toyConceptA), ("T2".toList, toyConceptB)],
    lexical_exact := [("q".toList, ["T1".toList])],
    lexical_norm := [("q".toList, ["T1".toList, "T2".toList])] }

/-- Retrieval configuration for the witness (integer-valued scores so
concrete evaluation stays within kernel-reducible rational operations). -/
def toyCfg : RetrievalConfig :=
  { top_k := 10, lexical_exact_score := 2, lexical_norm_score := 1,
    vector_min_score := -1, include_definitions := true }

/-- A vector hit on the already-present concept T1. -/
def toyVecCand : Candidate :=
  { candidate_id := "T1".toList, candidate_label := "alpha".toList,
    score := 3 }

/-! ## `linker.py`

`dedup_entities` keeps a dict `merged` plus the key insertion order and
finally lists `merged[k]` in first-occurrence order; that is an
insertion-ordered association list updated in place.  The retriever and
reranker objects enter `link_mentions` as functions. -/

/-- The status rank table, used both by `linker.dedup_entities` and as
`exporter.STATUS_RANK` (the two tables in the source are identical):
RESOLVED > AMBIGUOUS > UNRESOLVED > REJECTED. -/
def statusRank : EntityStatus → Nat
  | .RESOLVED => 3
  | .AMBIGUOUS => 2
  | .UNRESOLVED => 1
  | .REJECTED => 0

/-- The dedup key of `dedup_entities`: `(label, "ID::" + linked_id)` for a
RESOLVED entity with a truthy linked id, else
`(label, "SF::" + normalize_text(surface_form))`. -/
def dedupKey (e : LinkedEntity) : Str × Str :=
  if e.status = .RESOLVED ∧ optStrTruthy e.linked_id = true then
    (e.label, "ID::".toList ++ e.linked_id.getD [])
  else
    (e.label, "SF::".toList ++ normalizeText e.surface_form)

/-- The provenance merge of `dedup_entities`: start from the base's list
and append each unseen offset of the other entity, preserving order. -/
def unionProv (base ext : List FieldOffsets) : List FieldOffsets :=
  ext.foldl (fun acc p => if p ∈ acc then acc else acc ++ [p]) base

/-- The collision merge of `dedup_entities`: union the provenances, keep
the entity of higher status rank (the earlier one on ties), and rebuild
it through the validator with the merged provenances. -/
def mergeEnts (base e : LinkedEntity) : LinkedEntity :=
  let prov := unionProv base.provenances e.provenances
  let chosen := if statusRank e.status ≤ statusRank base.status then base
    else e
  mkLinkedEntity { chosen with provenances := prov }

/-- One iteration of the `dedup_entities` loop. -/
def dedupStep (acc : List ((Str × Str) × LinkedEntity))
    (e : LinkedEntity) : List ((Str × Str) × LinkedEntity) :=
  match assocFind acc (dedupKey e) with
  | none => acc ++ [(dedupKey e, e)]
  | some base => assocReplace acc (dedupKey e) (mergeEnts base e)

/-- `linker.dedup_entities`. -/
def dedupEntities (entities : List LinkedEntity) : List LinkedEntity :=
  (entities.foldl dedupStep []).map Prod.snd

/-- `linker.LinkConfig`. -/
structure LinkConfig : Type where
  policy : PolicyConfig := {}
  include_negation : Bool := false
  negation : NegationConfig := {}
  context_window_chars : Nat := 200

/-- `linker.local_context`. -/
def localContext (raw_fields : List (Str × Str)) (m : Mention)
    (window_chars : Nat) : Str :=
  if assocFindD raw_fields m.source_field [] = [] then []
  else
    pySlice (assocFindD raw_fields m.source_field [])
      (m.start - window_chars)
      (min (assocFindD raw_fields m.source_field []).length
        (m.stop + window_chars))

/-- `linker.link_mentions`, with the retriever and reranker injected as
functions (the retriever is called on the mention's surface form). -/
def linkMentions (raw_fields : List (Str × Str)) (mentions : List Mention)
    (retrieveFn : Str → List Candidate)
    (rerankFn : Str → Str → List Candidate → RerankResult)
    (cfg : LinkConfig) : List LinkedEntity :=
  dedupEntities
    (mentions.map fun m =>
      if cfg.include_negation && isNegated raw_fields m cfg.negation then
        mkLinkedEntity
          { label := m.label, surface_form := m.surface_form,
            source_field := m.source_field, offsets := m.offsets,
            status := .REJECTED, provenances := [m.offsets] }
      else if retrieveFn m.surface_form = [] then
        mkLinkedEntity
          { label := m.label, surface_form := m.surface_form,
            source_field := m.source_field, offsets := m.offsets,
            status := .UNRESOLVED, provenances := [m.offsets] }
      else
        let rr := rerankFn m.surface_form
          (localContext raw_fields m cfg.context_window_chars)
          (retrieveFn m.surface_form)
        let status := assignStatus rr.best_score rr.margin cfg.policy.tau
          cfg.policy.delta
        mkLinkedEntity
          { label := m.label, surface_form := m.surface_form,
            source_field := m.source_field, offsets := m.offsets,
            status := status,
            linked_id :=
              match rr.best with
              | some b =>
                  if status = .RESOLVED then some b.candidate_id else none
              | none => none,
            score := if rr.best.isSome then some rr.best_score else none,
            margin := if rr.best.isSome then some rr.margin else none,
            top_candidates :=
              if status = .AMBIGUOUS ∨ status = .UNRESOLVED then
                rr.top.take cfg.policy.top_n
              else rr.top.take 1,
            provenances := [m.offsets] })

/-- The well-formedness of the dedup accumulator: every entry is stored
under its own dedup key. -/
def KeyInv (acc : List ((Str × Str) × LinkedEntity)) : Prop :=
  ∀ p ∈ acc, dedupKey p.2 = p.1

/-- The earlier entity with the order-preserving union of both provenance
lists appended: the merge result the dedup claim describes. -/
def mergedPairEntity (e1 e2 : LinkedEntity) : LinkedEntity :=
  { e1 with
      provenances := e1.provenances ++
        e2.provenances.filter (fun p => decide (p ∉ e1.provenances)) }

/-- Spec scenario 5: a RESOLVED "DOID:1324" entity found in
"summary"@(10,20). -/
def entC2a : LinkedEntity :=
  { label := "disease".toList, surface_form := "lung cancer".toList,
    source_field := "summary".toList,
    offsets := ⟨"summary".toList, 10, 20⟩,
    status := .RESOLVED, linked_id := some "DOID:1324".toList,
    score := some 1, margin := some 1,
    provenances := [⟨"summary".toList, 10, 20⟩] }

/-- Spec scenario 5: the same concept found in "title"@(0,12). -/
def entC2b : LinkedEntity :=
  { label := "disease".toList, surface_form := "lung carcinoma".toList,
    source_field := "title".toList,
    offsets := ⟨"title".toList, 0, 12⟩,
    status := .RESOLVED, linked_id := some "DOID:1324".toList,
    score := some 1, margin := some 1,
    provenances := [⟨"title".toList, 0, 12⟩] }

/-- The raw fields of the C1 failing input: field "a" holds a negated
occurrence of "foo", field "b" a plain one. -/
def rawC1 : List (Str × Str) :=
  [("a".toList, "no foo".toList), ("b".toList, "foo".toList)]

/-- The mention of "foo" inside field "a" (negated context). -/
def m1C1 : Mention :=
  { label := "disease".toList, surface_form := "foo".toList,
    source_field := "a".toList, start := 3, stop := 6,
    extractor_conf := 1 }

/-- The mention of "foo" inside field "b". -/
def m2C1 : Mention :=
  { label := "disease".toList, surface_form := "foo".toList,
    source_field := "b".toList, start := 0, stop := 3,
    extractor_conf := 1 }

/-- Negation enabled, defaults otherwise. -/
def cfgC1 : LinkConfig := { include_negation := true }

/-! ## `exporter.py` -/

/-- The entity sort key of `exporter._sort_entities`:
`(-STATUS_RANK[status], linked_id or "", source_field, offsets.start,
offsets.end, surface_form)`. -/
def exporterKey (e : LinkedEntity) :
    Lex (ℤ × Lex (Str × Lex (Str × Lex (Nat × Lex (Nat × Str))))) :=
  toLex (-(statusRank e.status : ℤ), toLex (orStrDefault e.linked_id [],
    toLex (e.source_field, toLex (e.offsets.start,
      toLex (e.offsets.stop, e.surface_form)))))

/-- `exporter._sort_candidates_in_entity`: sort `top_candidates` by
`(-score, candidate_id)` and rebuild the entity through the validator
(`model_validate`). -/
def sortCandidatesInEntity (e : LinkedEntity) : LinkedEntity :=
  mkLinkedEntity
    { e with top_candidates := pySortedBy candSortKey e.top_candidates }

/-- `exporter._sort_entities`. -/
def sortEntities (entities : List LinkedEntity) : List LinkedEntity :=
  pySortedBy exporterKey (entities.map sortCandidatesInEntity)

/-- `exporter.group_entities_by_label`: group the entities by label
(group members in input order), then list the groups with sorted label
keys, each group sorted by the exporter rule. -/
def groupEntitiesByLabel (entities : List LinkedEntity) :
    List (Str × List LinkedEntity) :=
  (pySortedBy (fun s : Str => s)
      (dedupKeepFirst (entities.map (fun e => e.label)))).map
    fun lbl =>
      (lbl, sortEntities (entities.filter (fun e => decide (e.label = lbl))))

/-- Group-by-label witness entity: label "b", unsorted candidates. -/
def entC7x : LinkedEntity :=
  { label := "b".toList, surface_form := "x".toList,
    source_field := "f".toList, offsets := ⟨"f".toList, 0, 1⟩,
    status := .UNRESOLVED,
    top_candidates :=
      [{ candidate_id := "C1".toList, candidate_label := "c1".toList,
         score := 1 },
       { candidate_id := "C2".toList, candidate_label := "c2".toList,
         score := 2 }],
    provenances := [⟨"f".toList, 0, 1⟩] }

/-- Group-by-label witness entity: label "a". -/
def entC7y : LinkedEntity :=
  { label := "a".toList, surface_form := "y".toList,
    source_field := "f".toList, offsets := ⟨"f".toList, 2, 3⟩,
    status := .UNRESOLVED,
    provenances := [⟨"f".toList, 2, 3⟩] }

/-! ## `ontology_bundle.get_or_build_vector_index` (persistence)

Only the file-system effects of the build matter for the atomicity
claim.  After assembling the FAISS index, the build performs four direct
writes into the final index directory, in source order:
`np.save(embeddings_path, vecs)`, `concept_ids_path.write_text(...)`,
`faiss.write_index(index, str(index_path))`,
`meta_path.write_text(...)`.  No temporary sibling is created and no
rename is performed anywhere in the function. -/

/-- A file-system effect: a direct write of a path, or an atomic rename. -/
inductive FsOp : Type
  | write (path : Str)
  | rename (src dst : Str)
deriving DecidableEq, Repr

/-- Whether an effect is a rename. -/
def FsOp.isRename : FsOp → Bool
  | .write _ => false
  | .rename _ _ => true

/-- The four artifacts of a vector index, as the reuse check lists them:
`meta.json`, `faiss.index`, `concept_ids.json`, `embeddings.npy`. -/
def vectorIndexArtifacts : List Str :=
  ["embeddings.npy".toList, "concept_ids.json".toList,
   "faiss.index".toList, "meta.json".toList]

/-- The persistence trace of the build path of
`get_or_build_vector_index`: the artifact writes in source order. -/
def buildPersistOps : List FsOp :=
  [.write "embeddings.npy".toList, .write "concept_ids.json".toList,
   .write "faiss.index".toList, .write "meta.json".toList]

/-- The files visible in the index directory after a prefix of the trace
has executed, starting from a fresh (empty) directory. -/
def visibleAfter (ops : List FsOp) : List Str :=
  ops.foldl
    (fun acc op =>
      match op with
      | .write p => if p ∈ acc then acc else acc ++ [p]
      | .rename _ _ => acc) []

/-- The existence half of the reuse check of
`get_or_build_vector_index`: all four artifact files must exist (the
meta-content comparison can only reject further). -/
def reuseFilesPresent (files : List Str) : Bool :=
  vectorIndexArtifacts.all (fun a => decide (a ∈ files))

/-! ## Lemmas and theorems -/

lemma drop_drop_len_lt {s r : Str} {c : Char}
    (h : s.dropWhile (· == ' ') = c :: r) :
    (r.dropWhile (· != ' ')).length < s.length := by
  have h1 := (List.dropWhile_sublist (l := s) (· == ' ')).length_le
  rw [h] at h1
  have h2 := (List.dropWhile_sublist (l := r) (· != ' ')).length_le
  simp only [List.length_cons] at h1
  omega

lemma pyWordsF_succ_cons {n : Nat} {s r : Str} {c : Char}
    (h : s.dropWhile (· == ' ') = c :: r) :
    pyWordsF (n + 1) s =
      (c :: r.takeWhile (· != ' ')) :: pyWordsF n (r.dropWhile (· != ' ')) := by
  simp only [pyWordsF, h]

lemma pyWordsF_congr : ∀ {n m : Nat} {s : Str},
    s.length < n → s.length < m → pyWordsF n s = pyWordsF m s := by
  intro n
  induction n with
  | zero => intro m s h1 _; omega
  | succ n ih =>
      intro m s h1 h2
      cases m with
      | zero => omega
      | succ m =>
          cases h : s.dropWhile (· == ' ') with
          | nil => simp [pyWordsF, h]
          | cons c r =>
              have hlt := drop_drop_len_lt h
              rw [pyWordsF_succ_cons h, pyWordsF_succ_cons h,
                ih (m := m) (by omega) (by omega)]

lemma pyWords_eq_nil {s : Str} (h : s.dropWhile (· == ' ') = []) :
    pyWords s = [] := by
  unfold pyWords
  simp [pyWordsF, h]

lemma pyWords_eq_cons {s : Str} {c : Char} {r : Str}
    (h : s.dropWhile (· == ' ') = c :: r) :
    pyWords s =
      (c :: r.takeWhile (· != ' ')) :: pyWords (r.dropWhile (· != ' ')) := by
  have hlt := drop_drop_len_lt h
  unfold pyWords
  rw [pyWordsF_succ_cons h]
  exact congrArg _ (pyWordsF_congr (by omega) (by omega))

lemma pyWords_nil : pyWords [] = [] :=
  pyWords_eq_nil rfl

lemma pyWords_cons_space (u : Str) : pyWords (' ' :: u) = pyWords u := by
  have hd : (' ' :: u).dropWhile (· == ' ') = u.dropWhile (· == ' ') := by
    rw [List.dropWhile_cons]
    simp
  cases h : u.dropWhile (· == ' ') with
  | nil => rw [pyWords_eq_nil (hd.trans h), pyWords_eq_nil h]
  | cons c r => rw [pyWords_eq_cons (hd.trans h), pyWords_eq_cons h]

lemma pyWords_no_space {s : Str} : ∀ {w : Str}, w ∈ pyWords s →
    w ≠ [] ∧ ' ' ∉ w := by
  generalize hN : s.length = N
  induction N using Nat.strong_induction_on generalizing s with
  | _ N ih =>
      intro w hw
      cases h : s.dropWhile (· == ' ') with
      | nil =>
          rw [pyWords_eq_nil h] at hw
          simp at hw
      | cons c r =>
          rw [pyWords_eq_cons h] at hw
          rcases List.mem_cons.1 hw with hw1 | hw2
          · subst hw1
            refine ⟨by simp, ?_⟩
            intro hmem
            rcases List.mem_cons.1 hmem with h1 | h2
            · have hc : ¬((c == ' ') = true) := by
                have := List.head?_dropWhile_not (· == ' ') s
                rw [h] at this
                simpa using this
              simp [← h1] at hc
            · have := List.mem_takeWhile_imp h2
              simp at this
          · exact ih _ (hN ▸ drop_drop_len_lt h) rfl hw2

lemma mem_of_mem_pyWords {s : Str} : ∀ {w : Str} {c : Char},
    w ∈ pyWords s → c ∈ w → c ∈ s := by
  generalize hN : s.length = N
  induction N using Nat.strong_induction_on generalizing s with
  | _ N ih =>
      intro w c hw hc
      cases h : s.dropWhile (· == ' ') with
      | nil =>
          rw [pyWords_eq_nil h] at hw
          simp at hw
      | cons d r =>
          rw [pyWords_eq_cons h] at hw
          have hsub : List.Sublist (d :: r) s := by
            have := List.dropWhile_sublist (l := s) (· == ' ')
            rwa [h] at this
          rcases List.mem_cons.1 hw with hw1 | hw2
          · subst hw1
            rcases List.mem_cons.1 hc with h1 | h2
            · subst h1
              exact hsub.mem (List.mem_cons_self _ _)
            · have hr : c ∈ r := List.takeWhile_subset _ h2
              exact hsub.mem (List.mem_cons_of_mem _ hr)
          · have hx : c ∈ r.dropWhile (· != ' ') :=
              ih _ (hN ▸ drop_drop_len_lt h) rfl hw2 hc
            exact hsub.mem
              (List.mem_cons_of_mem _ ((List.dropWhile_sublist _).mem hx))

lemma mem_pyJoinSpace {ws : List Str} {c : Char}
    (h : c ∈ pyJoinSpace ws) : c = ' ' ∨ ∃ w ∈ ws, c ∈ w := by
  induction ws with
  | nil => simp [pyJoinSpace] at h
  | cons w t ih =>
      cases t with
      | nil =>
          simp only [pyJoinSpace] at h
          exact Or.inr ⟨w, by simp, h⟩
      | cons v t' =>
          simp only [pyJoinSpace, List.mem_append, List.mem_cons] at h
          rcases h with h1 | h2 | h3
          · exact Or.inr ⟨w, by simp, h1⟩
          · exact Or.inl h2
          · rcases ih h3 with h4 | ⟨w', hw', hc'⟩
            · exact Or.inl h4
            · exact Or.inr ⟨w', by simp [hw'], hc'⟩

lemma takeWhile_nospace {r : Str} (h : ' ' ∉ r) :
    r.takeWhile (· != ' ') = r := by
  induction r with
  | nil => rfl
  | cons a t ih =>
      have ha : a ≠ ' ' := fun he => h (he ▸ List.mem_cons_self _ _)
      have ht := ih (fun hm => h (List.mem_cons_of_mem _ hm))
      rw [List.takeWhile_cons]
      simp [ha, ht]

lemma takeWhile_nospace_append {r u : Str} (h : ' ' ∉ r) :
    (r ++ ' ' :: u).takeWhile (· != ' ') = r := by
  induction r with
  | nil => simp [List.takeWhile_cons]
  | cons a t ih =>
      have ha : a ≠ ' ' := fun he => h (he ▸ List.mem_cons_self _ _)
      have ht := ih (fun hm => h (List.mem_cons_of_mem _ hm))
      rw [List.cons_append, List.takeWhile_cons]
      simp [ha, ht]

lemma dropWhile_nospace {r : Str} (h : ' ' ∉ r) :
    r.dropWhile (· != ' ') = [] := by
  induction r with
  | nil => rfl
  | cons a t ih =>
      have ha : a ≠ ' ' := fun he => h (he ▸ List.mem_cons_self _ _)
      have ht := ih (fun hm => h (List.mem_cons_of_mem _ hm))
      rw [List.dropWhile_cons]
      simp [ha, ht]

lemma dropWhile_nospace_append {r u : Str} (h : ' ' ∉ r) :
    (r ++ ' ' :: u).dropWhile (· != ' ') = ' ' :: u := by
  induction r with
  | nil => simp [List.dropWhile_cons]
  | cons a t ih =>
      have ha : a ≠ ' ' := fun he => h (he ▸ List.mem_cons_self _ _)
      have ht := ih (fun hm => h (List.mem_cons_of_mem _ hm))
      rw [List.cons_append, List.dropWhile_cons]
      simp [ha, ht]

lemma dropWhile_space_of_head {r : Str} (hne : r ≠ []) (h : ' ' ∉ r) :
    r.dropWhile (· == ' ') = r := by
  cases r with
  | nil => exact absurd rfl hne
  | cons a t =>
      have ha : a ≠ ' ' := fun he => h (he ▸ List.mem_cons_self _ _)
      rw [List.dropWhile_cons]
      simp [ha]

lemma pyWords_join {ws : List Str}
    (hne : ∀ w ∈ ws, w ≠ []) (hsp : ∀ w ∈ ws, ' ' ∉ w) :
    pyWords (pyJoinSpace ws) = ws := by
  induction ws with
  | nil => simp [pyJoinSpace, pyWords_nil]
  | cons w t ih =>
      have hwne : w ≠ [] := hne w (by simp)
      have hwsp : ' ' ∉ w := hsp w (by simp)
      cases t with
      | nil =>
          simp only [pyJoinSpace]
          obtain ⟨a, r, rfl⟩ := List.exists_cons_of_ne_nil hwne
          have hrsp : ' ' ∉ r := fun hm => hwsp (List.mem_cons_of_mem _ hm)
          rw [pyWords_eq_cons (dropWhile_space_of_head hwne hwsp),
            takeWhile_nospace hrsp, dropWhile_nospace hrsp, pyWords_nil]
      | cons v t' =>
          simp only [pyJoinSpace]
          obtain ⟨a, r, rfl⟩ := List.exists_cons_of_ne_nil hwne
          have hasp : a ≠ ' ' := fun he => hwsp (he ▸ List.mem_cons_self _ _)
          have hrsp : ' ' ∉ r := fun hm => hwsp (List.mem_cons_of_mem _ hm)
          have hdrop : ((a :: r) ++ ' ' :: pyJoinSpace (v :: t')).dropWhile
              (· == ' ') = a :: (r ++ ' ' :: pyJoinSpace (v :: t')) := by
            rw [List.cons_append, List.dropWhile_cons]
            simp [hasp]
          rw [pyWords_eq_cons hdrop, takeWhile_nospace_append hrsp,
            dropWhile_nospace_append hrsp, pyWords_cons_space]
          have ihx := ih (fun w hw => hne w (List.mem_cons_of_mem _ hw))
            (fun w hw => hsp w (List.mem_cons_of_mem _ hw))
          rw [ihx]

lemma collapseSpaces_idem (s : Str) :
    collapseSpaces (collapseSpaces s) = collapseSpaces s := by
  unfold collapseSpaces
  rw [pyWords_join (fun w hw => (pyWords_no_space hw).1)
    (fun w hw => (pyWords_no_space hw).2)]

lemma mem_collapseSpaces {s : Str} {c : Char} (h : c ∈ collapseSpaces s) :
    c = ' ' ∨ c ∈ s := by
  rcases mem_pyJoinSpace h with h1 | ⟨w, hw, hc⟩
  · exact Or.inl h1
  · exact Or.inr (mem_of_mem_pyWords hw hc)

lemma toLower_fix_of_not_upper {c : Char}
    (h : ¬(c.toNat ≥ 65 ∧ c.toNat ≤ 90)) : c.toLower = c := by
  unfold Char.toLower
  simp [h]

lemma toLower_toLower (c : Char) : c.toLower.toLower = c.toLower := by
  by_cases h : c.toNat ≥ 65 ∧ c.toNat ≤ 90
  · have h1 : c.toLower = Char.ofNat (c.toNat + 32) := by
      unfold Char.toLower
      simp [h]
    rw [h1]
    apply toLower_fix_of_not_upper
    obtain ⟨h65, h90⟩ := h
    generalize c.toNat = n at h65 h90
    interval_cases n <;> decide
  · rw [toLower_fix_of_not_upper h, toLower_fix_of_not_upper h]

lemma asciiLower_fix_normalizeText (s : Str) :
    asciiLower (normalizeText s) = normalizeText s := by
  unfold asciiLower
  have hfix : ∀ c ∈ normalizeText s, Char.toLower c = c := by
    intro c hc
    have hm : c ∈ collapseSpaces (mapNonAlnum pyIsAlnum (asciiLower s)) := hc
    rcases mem_collapseSpaces hm with rfl | hmem
    · decide
    · rcases List.mem_map.1 hmem with ⟨d, hd, rfl⟩
      rcases List.mem_map.1 hd with ⟨e, _, rfl⟩
      by_cases h : pyIsAlnum e.toLower = true
      · simp [h, toLower_toLower]
      · simp [h]
  calc (normalizeText s).map Char.toLower
      = (normalizeText s).map id := List.map_congr_left hfix
    _ = normalizeText s := List.map_id _

lemma mapNonAlnum_fix_collapse (alnum : Char → Bool) (u : Str) :
    mapNonAlnum alnum (collapseSpaces (mapNonAlnum alnum u)) =
      collapseSpaces (mapNonAlnum alnum u) := by
  unfold mapNonAlnum
  have hfix : ∀ c ∈ collapseSpaces (mapNonAlnum alnum u),
      (if alnum c then c else ' ') = c := by
    intro c hc
    rcases mem_collapseSpaces hc with rfl | hmem
    · exact ite_self _
    · rcases List.mem_map.1 hmem with ⟨d, _, rfl⟩
      by_cases h : alnum d = true
      · simp [h]
      · simp [h]
  calc (collapseSpaces (mapNonAlnum alnum u)).map (fun c => if alnum c then c else ' ')
      = (collapseSpaces (mapNonAlnum alnum u)).map id := List.map_congr_left hfix
    _ = _ := List.map_id _

/-- C10: the text normalizer is idempotent — for every string `s`,
`normalize_text(normalize_text(s)) = normalize_text(s)`, so normalized
lexical-map keys and dedup keys are fixed points of normalization. -/
theorem normalizeText_idempotent (s : Str) :
    normalizeText (normalizeText s) = normalizeText s := by
  have h1 : normalizeText (normalizeText s) =
      collapseSpaces (mapNonAlnum pyIsAlnum (asciiLower (normalizeText s))) := rfl
  rw [h1, asciiLower_fix_normalizeText]
  have h2 : mapNonAlnum pyIsAlnum (normalizeText s) = normalizeText s :=
    mapNonAlnum_fix_collapse pyIsAlnum (asciiLower s)
  rw [h2]
  exact collapseSpaces_idem (mapNonAlnum pyIsAlnum (asciiLower s))

lemma pySlice_length (w : Str) (a b : Nat) :
    (pySlice w a b).length = min b w.length - a := by
  simp [pySlice, List.length_drop, List.length_take]

lemma pySlice_getElem? (w : Str) (a b j : Nat) :
    (pySlice w a b)[j]? = if a + j < b then w[a + j]? else none := by
  simp [pySlice, List.getElem?_drop, List.getElem?_take]

lemma sliceLower_eq_iff {p w : Str} {i : Nat} (hb : i + p.length ≤ w.length) :
    (pySlice w i (i + p.length)).map Char.toLower = p ↔
      ∀ j < p.length, Char.toLower (w.getD (i + j) ' ') = p.getD j ' ' := by
  constructor
  · intro he j hj
    have h1 : ((pySlice w i (i + p.length)).map Char.toLower)[j]? = p[j]? := by
      rw [he]
    rw [List.getElem?_map, pySlice_getElem?, if_pos (by omega)] at h1
    have hw : i + j < w.length := by omega
    rw [List.getElem?_eq_getElem hw, List.getElem?_eq_getElem hj] at h1
    rw [List.getD_eq_getElem?_getD, List.getD_eq_getElem?_getD,
      List.getElem?_eq_getElem hw, List.getElem?_eq_getElem hj]
    simpa using h1
  · intro hp
    apply List.ext_getElem?
    intro n
    rw [List.getElem?_map, pySlice_getElem?]
    by_cases hn : n < p.length
    · rw [if_pos (by omega)]
      have hw : i + n < w.length := by omega
      rw [List.getElem?_eq_getElem hw, List.getElem?_eq_getElem hn]
      have hx := hp n hn
      rw [List.getD_eq_getElem?_getD, List.getD_eq_getElem?_getD,
        List.getElem?_eq_getElem hw, List.getElem?_eq_getElem hn] at hx
      simpa using hx
    · rw [if_neg (by omega), List.getElem?_eq_none (by omega)]
      simp

lemma matchAtB_iff {p w : Str} {i : Nat} :
    matchAtB p w i = true ↔
      (i + p.length ≤ w.length ∧
       (∀ j < p.length, Char.toLower (w.getD (i + j) ' ') = p.getD j ' ') ∧
       (i = 0 ∨ isWordChar (w.getD (i - 1) ' ') = false) ∧
       (i + p.length = w.length ∨
         isWordChar (w.getD (i + p.length) ' ') = false)) := by
  simp only [matchAtB, Bool.and_eq_true, decide_eq_true_eq, beq_iff_eq,
    Bool.or_eq_true, Bool.not_eq_true']
  constructor
  · rintro ⟨⟨⟨h1, h2⟩, h3⟩, h4⟩
    exact ⟨h1, (sliceLower_eq_iff h1).1 h2, h3, h4⟩
  · rintro ⟨h1, h2, h3, h4⟩
    exact ⟨⟨⟨h1, (sliceLower_eq_iff h1).2 h2⟩, h3⟩, h4⟩

lemma searchB_iff {p w : Str} :
    searchB p w = true ↔ ContainsAnchored p w := by
  unfold searchB ContainsAnchored
  rw [List.any_eq_true]
  constructor
  · rintro ⟨i, _, hm⟩
    exact ⟨i, matchAtB_iff.1 hm⟩
  · rintro ⟨i, hi⟩
    refine ⟨i, List.mem_range.2 ?_, matchAtB_iff.2 hi⟩
    have := hi.1
    omega

/-- C9: for every raw-fields mapping, mention whose source field is
present, and window size `W`, `is_negated` returns true iff the substring
`raw_fields[m.source_field][max(0, m.start−W) : min(len, m.end+W)]`
contains at least one of the word-boundary-anchored patterns
"no", "not", "without", "negative for", "no evidence of",
matched case-insensitively. -/
theorem isNegated_iff_window (raw : List (Str × Str)) (m : Mention)
    (cfg : NegationConfig) (text : Str)
    (hfind : assocFind raw m.source_field = some text) :
    (isNegated raw m cfg = true ↔
      ∃ p ∈ negPatterns,
        ContainsAnchored p (specWindow text m cfg.window_chars)) := by
  have htext : assocFindD raw m.source_field [] = text := by
    simp [assocFindD, hfind]
  unfold isNegated
  rw [htext]
  by_cases ht : text = []
  · subst ht
    rw [if_pos rfl]
    constructor
    · intro h
      exact absurd h (by simp)
    · rintro ⟨p, hp, i, hi, -⟩
      exfalso
      have hw : (specWindow [] m cfg.window_chars).length = 0 := by
        simp [specWindow, pySlice]
      have hplen : 0 < p.length := by
        simp only [negPatterns, List.mem_cons, List.not_mem_nil, or_false] at hp
        rcases hp with rfl | rfl | rfl | rfl | rfl <;> decide
      omega
  · rw [if_neg ht, List.any_eq_true]
    unfold specWindow
    constructor
    · rintro ⟨p, hp, hs⟩
      exact ⟨p, hp, searchB_iff.1 hs⟩
    · rintro ⟨p, hp, hc⟩
      exact ⟨p, hp, searchB_iff.2 hc⟩

/-- Witness for C9 at spec scenario 4: "No lung cancer was detected."
with window 20 around the mention "lung cancer". -/
theorem isNegated_iff_window_witness :
    (assocFind [("summary".toList, "No lung cancer was detected.".toList)]
        "summary".toList = some "No lung cancer was detected.".toList) ∧
      (isNegated [("summary".toList, "No lung cancer was detected.".toList)]
          { label := "disease".toList, surface_form := "lung cancer".toList,
            source_field := "summary".toList, start := 3, stop := 14,
            extractor_conf := 9/10 } { window_chars := 20 } = true ↔
        ∃ p ∈ negPatterns,
          ContainsAnchored p
            (specWindow "No lung cancer was detected.".toList
              { label := "disease".toList, surface_form := "lung cancer".toList,
                source_field := "summary".toList, start := 3, stop := 14,
                extractor_conf := 9/10 } 20)) :=
  ⟨by decide,
    isNegated_iff_window _ _ _ _ (by decide)⟩

lemma mem_pySortedBy {α κ : Type} [LinearOrder κ] {k : α → κ} {l : List α}
    {x : α} : x ∈ pySortedBy k l ↔ x ∈ l :=
  List.mem_insertionSort _

lemma sorted_pySortedBy {α κ : Type} [LinearOrder κ] (k : α → κ)
    (l : List α) : List.Sorted (keyLe k) (pySortedBy k l) :=
  List.sorted_insertionSort _ l

lemma assocFind_eq_of_mem_nodup {κ β : Type} [DecidableEq κ]
    {l : List (κ × β)} {k : κ} {v : β}
    (hnd : (l.map Prod.fst).Nodup) (hm : (k, v) ∈ l) :
    assocFind l k = some v := by
  induction l with
  | nil => simp at hm
  | cons p t ih =>
      obtain ⟨k', v'⟩ := p
      simp only [List.map_cons, List.nodup_cons] at hnd
      rcases List.mem_cons.1 hm with h1 | h2
      · cases h1
        simp [assocFind]
      · have hk : k' ≠ k := by
          intro he
          subst he
          exact hnd.1 (List.mem_map.2 ⟨(k', v), h2, rfl⟩)
        simp only [assocFind, if_neg hk]
        exact ih hnd.2 h2

/-- C8: for every raw-fields mapping (with the distinct keys of a Python
dict) and every mention emitted by `RegexExtractor.extract`, the slice
`raw_fields[m.source_field][m.start:m.end]` equals `m.surface_form`. -/
theorem regexExtract_offsets_roundtrip
    (patterns : List (Str × (Str → List (Nat × Nat)))) (conf : ℚ)
    (raw_fields : List (Str × Str))
    (hnd : (raw_fields.map Prod.fst).Nodup) :
    ∀ m ∈ regexExtract patterns conf raw_fields,
      ∃ text, assocFind raw_fields m.source_field = some text ∧
        pySlice text m.start m.stop = m.surface_form := by
  intro m hm
  rw [regexExtract, mem_pySortedBy] at hm
  rcases List.mem_flatMap.1 hm with ⟨⟨fk, text⟩, hf, hm2⟩
  by_cases ht : text = []
  · simp [ht] at hm2
  · rw [if_neg ht] at hm2
    rcases List.mem_flatMap.1 hm2 with ⟨⟨lbl, rx⟩, _, hm3⟩
    rcases List.mem_filterMap.1 hm3 with ⟨⟨s, e⟩, _, hmk⟩
    by_cases hse : s = e
    · simp [hse] at hmk
    · rw [if_neg hse] at hmk
      obtain rfl := Option.some.inj hmk
      exact ⟨text, assocFind_eq_of_mem_nodup hnd hf, rfl⟩

/-- Witness for C8 at spec scenario 1: one field, one pattern matching
"lung cancer" at offsets (12, 23). -/
theorem regexExtract_offsets_roundtrip_witness :
    (([("summary".toList,
        "We profiled lung cancer samples and matched controls.".toList)].map
          Prod.fst).Nodup) ∧
      ∀ m ∈ regexExtract [("disease".toList, fun _ => [(12, 23)])] 1
          [("summary".toList,
            "We profiled lung cancer samples and matched controls.".toList)],
        ∃ text,
          assocFind [("summary".toList,
            "We profiled lung cancer samples and matched controls.".toList)]
              m.source_field = some text ∧
            pySlice text m.start m.stop = m.surface_form :=
  ⟨by decide, regexExtract_offsets_roundtrip _ _ _ (by decide)⟩

lemma rerankFinish_cases (top : List Candidate) :
    ((rerankFinish top).top = top) ∧
    (∀ c1 c2 rest, top = c1 :: c2 :: rest →
      (rerankFinish top).margin = c1.score - c2.score) ∧
    (∀ c1, top = [c1] → (rerankFinish top).margin = 1) := by
  refine ⟨?_, ?_, ?_⟩
  · cases top with
    | nil => rfl
    | cons b t => cases t <;> rfl
  · intro c1 c2 rest h
    subst h
    rfl
  · intro c1 h
    subst h
    rfl

lemma length_pySortedBy {α κ : Type} [LinearOrder κ] (k : α → κ)
    (l : List α) : (pySortedBy k l).length = l.length :=
  (List.perm_insertionSort (keyLe k) l).length_eq

/-- C6: both rerankers return `{best := none, best_score := 0,
margin := 0, top := []}` on an empty candidate sequence, and on a
non-empty sequence the margin is `top[0].score - top[1].score` for at
least two candidates and `1.0` for exactly one. -/
theorem rerank_empty_and_margin (predict : Str × Str → ℚ)
    (mention_text context : Str) :
    (dummyRerank mention_text context [] =
      { best := none, best_score := 0, margin := 0, top := [] }) ∧
    (ceRerank predict mention_text context [] =
      { best := none, best_score := 0, margin := 0, top := [] }) ∧
    ∀ candidates : List Candidate, candidates ≠ [] →
      ∀ r ∈ [dummyRerank mention_text context candidates,
             ceRerank predict mention_text context candidates],
        r.top.length = candidates.length ∧
        (∀ c1 c2 rest, r.top = c1 :: c2 :: rest →
          r.margin = c1.score - c2.score) ∧
        (∀ c1, r.top = [c1] → r.margin = 1) := by
  refine ⟨rfl, by simp [ceRerank], ?_⟩
  intro cands hne r hr
  simp only [List.mem_cons, List.not_mem_nil, or_false] at hr
  rcases hr with rfl | rfl
  · unfold dummyRerank
    obtain ⟨h1, h2, h3⟩ := rerankFinish_cases
      ((pySortedBy scoredKey (cands.map fun c => (c.score, c))).map fun sc =>
        { sc.2 with
            score := sc.1
            source := some (orStrDefault sc.2.source "rerank".toList) })
    refine ⟨?_, fun c1 c2 rest h => h2 c1 c2 rest (h1 ▸ h),
      fun c1 h => h3 c1 (h1 ▸ h)⟩
    rw [h1, List.length_map, length_pySortedBy, List.length_map]
  · unfold ceRerank
    rw [if_neg hne]
    obtain ⟨h1, h2, h3⟩ := rerankFinish_cases _
    refine ⟨?_, fun c1 c2 rest h => h2 c1 c2 rest (h1 ▸ h),
      fun c1 h => h3 c1 (h1 ▸ h)⟩
    rw [h1, List.length_map, length_pySortedBy, List.length_map]

/-- Witness for C6 at a two-candidate input: margins computed over the
rerank-scored top list. -/
theorem rerank_empty_and_margin_witness :
    ∃ r ∈ [dummyRerank "cancer".toList "ctx".toList [sampleCandA, sampleCandB],
           ceRerank (fun _ => 1/2) "cancer".toList "ctx".toList
             [sampleCandA, sampleCandB]],
      r.top.length = 2 ∧
      (∀ c1 c2 rest, r.top = c1 :: c2 :: rest →
        r.margin = c1.score - c2.score) ∧
      (∀ c1, r.top = [c1] → r.margin = 1) := by
  refine ⟨dummyRerank "cancer".toList "ctx".toList [sampleCandA, sampleCandB],
    List.mem_cons_self _ _, ?_⟩
  have h := (rerank_empty_and_margin (fun _ => 1/2) "cancer".toList
      "ctx".toList).2.2 [sampleCandA, sampleCandB] (by decide)
    (dummyRerank "cancer".toList "ctx".toList [sampleCandA, sampleCandB])
    (List.mem_cons_self _ _)
  simpa using h

/-- C3: `assign_status` returns RESOLVED iff `best ≥ τ ∧ margin ≥ δ`,
AMBIGUOUS iff `best ≥ τ ∧ margin < δ`, UNRESOLVED otherwise (i.e. iff
`best < τ`; the boundaries `best = τ`, `margin = δ` yield RESOLVED), and
never REJECTED. -/
theorem assignStatus_table (best margin tau delta : ℚ) :
    (assignStatus best margin tau delta = .RESOLVED ↔
      best ≥ tau ∧ margin ≥ delta) ∧
    (assignStatus best margin tau delta = .AMBIGUOUS ↔
      best ≥ tau ∧ margin < delta) ∧
    (assignStatus best margin tau delta = .UNRESOLVED ↔ best < tau) ∧
    assignStatus best margin tau delta ≠ .REJECTED := by
  unfold assignStatus
  rcases le_or_lt tau best with hb | hb
  · rcases le_or_lt delta margin with hm | hm
    · rw [if_pos ⟨hb, hm⟩]
      exact ⟨iff_of_true rfl ⟨hb, hm⟩,
        iff_of_false (by decide) (fun h => absurd h.2 (not_lt.2 hm)),
        iff_of_false (by decide) (not_lt.2 hb), by decide⟩
    · rw [if_neg (fun h => absurd h.2 (not_le.2 hm)), if_pos ⟨hb, hm⟩]
      exact ⟨iff_of_false (by decide) (fun h => absurd h.2 (not_le.2 hm)),
        iff_of_true rfl ⟨hb, hm⟩,
        iff_of_false (by decide) (not_lt.2 hb), by decide⟩
  · have hn1 : ¬(best ≥ tau ∧ margin ≥ delta) :=
      fun h => absurd h.1 (not_le.2 hb)
    have hn2 : ¬(best ≥ tau ∧ margin < delta) :=
      fun h => absurd h.1 (not_le.2 hb)
    rw [if_neg hn1, if_neg hn2]
    exact ⟨iff_of_false (by decide) hn1, iff_of_false (by decide) hn2,
      iff_of_true rfl hb, by decide⟩

lemma mem_dedupKeepFirstAux {α : Type} [DecidableEq α] :
    ∀ {l seen : List α} {a : α},
      a ∈ dedupKeepFirstAux seen l ↔ a ∈ l ∧ a ∉ seen := by
  intro l
  induction l with
  | nil => simp [dedupKeepFirstAux]
  | cons b t ih =>
      intro seen a
      simp only [dedupKeepFirstAux]
      by_cases hb : b ∈ seen
      · rw [if_pos hb, ih]
        constructor
        · rintro ⟨h1, h2⟩
          exact ⟨List.mem_cons_of_mem _ h1, h2⟩
        · rintro ⟨h1, h2⟩
          rcases List.mem_cons.1 h1 with rfl | h3
          · exact absurd hb h2
          · exact ⟨h3, h2⟩
      · rw [if_neg hb, List.mem_cons]
        constructor
        · rintro (rfl | h)
          · exact ⟨List.mem_cons_self _ _, hb⟩
          · obtain ⟨h1, h2⟩ := ih.1 h
            exact ⟨List.mem_cons_of_mem _ h1,
              fun hs => h2 (List.mem_append.2 (Or.inl hs))⟩
        · rintro ⟨h1, h2⟩
          rcases List.mem_cons.1 h1 with rfl | h3
          · exact Or.inl rfl
          · by_cases hab : a = b
            · exact Or.inl hab
            · refine Or.inr (ih.2 ⟨h3, ?_⟩)
              intro hs
              rcases List.mem_append.1 hs with hs1 | hs2
              · exact h2 hs1
              · exact hab (List.mem_singleton.1 hs2)

lemma mem_dedupKeepFirst {α : Type} [DecidableEq α] {l : List α} {a : α} :
    a ∈ dedupKeepFirst l ↔ a ∈ l := by
  rw [dedupKeepFirst, mem_dedupKeepFirstAux]
  simp

lemma nodup_dedupKeepFirstAux {α : Type} [DecidableEq α] :
    ∀ {l seen : List α}, (dedupKeepFirstAux seen l).Nodup := by
  intro l
  induction l with
  | nil => simp [dedupKeepFirstAux]
  | cons b t ih =>
      intro seen
      simp only [dedupKeepFirstAux]
      by_cases hb : b ∈ seen
      · rw [if_pos hb]
        exact ih
      · rw [if_neg hb]
        refine List.nodup_cons.2 ⟨fun hmem => ?_, ih⟩
        have := (mem_dedupKeepFirstAux.1 hmem).2
        simp at this

lemma nodup_dedupKeepFirst {α : Type} [DecidableEq α] (l : List α) :
    (dedupKeepFirst l).Nodup :=
  nodup_dedupKeepFirstAux

lemma assocFind_cons {κ β : Type} [DecidableEq κ] (k' : κ) (v : β)
    (t : List (κ × β)) (k : κ) :
    assocFind ((k', v) :: t) k = if k' = k then some v else assocFind t k :=
  rfl

lemma assocFind_append_left {κ β : Type} [DecidableEq κ]
    {l l' : List (κ × β)} {k : κ} {v : β}
    (h : assocFind l k = some v) :
    assocFind (l ++ l') k = some v := by
  induction l with
  | nil => simp [assocFind] at h
  | cons p t ih =>
      obtain ⟨k', v'⟩ := p
      rw [assocFind_cons] at h
      rw [show ((k', v') :: t) ++ l' = (k', v') :: (t ++ l') from rfl,
        assocFind_cons]
      by_cases hk : k' = k
      · rwa [if_pos hk] at h ⊢
      · rw [if_neg hk] at h ⊢
        exact ih h

lemma assocFind_eq_none_of_not_mem {κ β : Type} [DecidableEq κ]
    {l : List (κ × β)} {k : κ} (h : k ∉ l.map Prod.fst) :
    assocFind l k = none := by
  induction l with
  | nil => rfl
  | cons p t ih =>
      obtain ⟨k', v'⟩ := p
      rw [assocFind_cons]
      have hk : k' ≠ k := by
        intro he
        exact h (by simp [he])
      rw [if_neg hk]
      exact ih (fun hm => h (by simp [hm]))

lemma assocFind_append_right {κ β : Type} [DecidableEq κ]
    {l l' : List (κ × β)} {k : κ} (h : k ∉ l.map Prod.fst) :
    assocFind (l ++ l') k = assocFind l' k := by
  induction l with
  | nil => rfl
  | cons p t ih =>
      obtain ⟨k', v'⟩ := p
      rw [show ((k', v') :: t) ++ l' = (k', v') :: (t ++ l') from rfl,
        assocFind_cons]
      have hk : k' ≠ k := by
        intro he
        exact h (by simp [he])
      rw [if_neg hk]
      exact ih (fun hm => h (by simp [hm]))

lemma assocReplace_cons {κ β : Type} [DecidableEq κ] (k' : κ) (v' : β)
    (t : List (κ × β)) (k : κ) (v : β) :
    assocReplace ((k', v') :: t) k v =
      (if k' = k then (k, v) else (k', v')) :: assocReplace t k v :=
  rfl

lemma assocReplace_find_self {κ β : Type} [DecidableEq κ]
    {l : List (κ × β)} {k : κ} {c : β} (v : β)
    (h : assocFind l k = some c) :
    assocFind (assocReplace l k v) k = some v := by
  induction l with
  | nil => simp [assocFind] at h
  | cons p t ih =>
      obtain ⟨k', v'⟩ := p
      rw [assocFind_cons] at h
      rw [assocReplace_cons]
      by_cases hk : k' = k
      · rw [if_pos hk, assocFind_cons, if_pos rfl]
      · rw [if_neg hk] at h
        rw [if_neg hk, assocFind_cons, if_neg hk]
        exact ih h

lemma assocReplace_keys {κ β : Type} [DecidableEq κ]
    (l : List (κ × β)) (k : κ) (v : β) :
    (assocReplace l k v).map Prod.fst = l.map Prod.fst := by
  unfold assocReplace
  rw [List.map_map]
  apply List.map_congr_left
  intro p _
  by_cases hpk : p.1 = k
  · simp [Function.comp, hpk]
  · simp [Function.comp, hpk]

lemma buildAll_mkLex_keys {st : OntologyStore} {cfg : RetrievalConfig}
    {src : Str} {scr : ℚ} :
    ∀ {cids : List Str} {out : List (Str × Candidate)},
      buildAll (mkLexCand st cfg src scr) cids = some out →
      out.map Prod.fst = cids := by
  intro cids
  induction cids with
  | nil =>
      intro out h
      cases h
      rfl
  | cons a t ih =>
      intro out h
      unfold buildAll at h
      cases hfa : mkLexCand st cfg src scr a with
      | none => rw [hfa] at h; cases h
      | some p =>
          rw [hfa] at h
          cases hft : buildAll (mkLexCand st cfg src scr) t with
          | none => rw [hft] at h; cases h
          | some rest =>
              rw [hft] at h
              cases h
              obtain ⟨cobj, hcobj, rfl⟩ := Option.map_eq_some'.1 hfa
              simp [lexCandidate, ih hft]

lemma buildAll_mkLex_find {st : OntologyStore} {cfg : RetrievalConfig}
    {src : Str} {scr : ℚ} :
    ∀ {cids : List Str} {out : List (Str × Candidate)} {cid : Str},
      cids.Nodup → buildAll (mkLexCand st cfg src scr) cids = some out →
      cid ∈ cids →
      ∃ cobj, assocFind st.concepts cid = some cobj ∧
        assocFind out cid = some (lexCandidate cfg src scr cid cobj) := by
  intro cids
  induction cids with
  | nil =>
      intro out cid _ _ hmem
      simp at hmem
  | cons a t ih =>
      intro out cid hnd h hmem
      unfold buildAll at h
      cases hfa : mkLexCand st cfg src scr a with
      | none => rw [hfa] at h; cases h
      | some p =>
          rw [hfa] at h
          cases hft : buildAll (mkLexCand st cfg src scr) t with
          | none => rw [hft] at h; cases h
          | some rest =>
              rw [hft] at h
              cases h
              obtain ⟨cobj, hcobj, rfl⟩ := Option.map_eq_some'.1 hfa
              rcases List.mem_cons.1 hmem with rfl | hmt
              · exact ⟨cobj, hcobj, by rw [assocFind_cons, if_pos rfl]⟩
              · have hane : a ≠ cid := by
                  intro he
                  exact (List.nodup_cons.1 hnd).1 (he ▸ hmt)
                obtain ⟨cobj', h1, h2⟩ :=
                  ih (List.nodup_cons.1 hnd).2 hft hmt
                exact ⟨cobj', h1, by rw [assocFind_cons, if_neg hane]; exact h2⟩

lemma mergedLex_eq {st : OntologyStore} {cfg : RetrievalConfig}
    {mention : Str} {ml : List (Str × Candidate)}
    (h : mergedLex st cfg mention = some ml) :
    ∃ exCands normCands,
      buildAll
        (mkLexCand st cfg "lexical_exact".toList cfg.lexical_exact_score)
        (lookupExact st mention) = some exCands ∧
      buildAll
        (mkLexCand st cfg "lexical_norm".toList cfg.lexical_norm_score)
        ((lookupNormalized st mention).filter
          (fun cid => !(decide (cid ∈ exCands.map Prod.fst)))) =
            some normCands ∧
      ml = exCands ++ normCands := by
  unfold mergedLex at h
  cases hex : buildAll
      (mkLexCand st cfg "lexical_exact".toList cfg.lexical_exact_score)
      (lookupExact st mention) with
  | none =>
      rw [hex] at h
      simp only [Option.bind_eq_bind, Option.none_bind] at h
      exact Option.noConfusion h
  | some exCands =>
      rw [hex] at h
      simp only [Option.bind_eq_bind, Option.some_bind] at h
      cases hnorm : buildAll
          (mkLexCand st cfg "lexical_norm".toList cfg.lexical_norm_score)
          ((lookupNormalized st mention).filter
            (fun cid => !(decide (cid ∈ exCands.map Prod.fst)))) with
      | none =>
          rw [hnorm] at h
          simp only [Option.none_bind] at h
          exact Option.noConfusion h
      | some normCands =>
          rw [hnorm] at h
          simp only [Option.some_bind, Option.pure_def,
            Option.some.injEq] at h
          exact ⟨exCands, normCands, rfl, hnorm, h.symm⟩

/-- C5: `retrieve` returns at most `top_k` candidates ordered by
`(-score, candidate_id)`; after the lexical stages every exact hit is
stored with score `lexical_exact_score` and source "lexical_exact", every
normalized hit not already present with score `lexical_norm_score` and
source "lexical_norm"; and a (threshold-passing) vector hit whose concept
id is already present updates that entry's score to the max of the two
scores instead of inserting a new candidate. -/
theorem retrieve_spec (st : OntologyStore) (cfg : RetrievalConfig) :
    (∀ vecResult mention out,
      retrieve st cfg vecResult mention = some out →
      out.length ≤ cfg.top_k ∧ List.Sorted (keyLe candSortKey) out) ∧
    (∀ mention ml, mergedLex st cfg mention = some ml →
      (∀ cid ∈ lookupExact st mention,
        ∃ cobj, assocFind st.concepts cid = some cobj ∧
          assocFind ml cid = some (lexCandidate cfg "lexical_exact".toList
            cfg.lexical_exact_score cid cobj)) ∧
      (∀ cid ∈ lookupNormalized st mention, cid ∉ lookupExact st mention →
        ∃ cobj, assocFind st.concepts cid = some cobj ∧
          assocFind ml cid = some (lexCandidate cfg "lexical_norm".toList
            cfg.lexical_norm_score cid cobj))) ∧
    (∀ acc vc c, cfg.vector_min_score ≤ vc.score →
      assocFind acc vc.candidate_id = some c →
      assocFind (applyVectorCand st cfg acc vc) vc.candidate_id =
        some { c with score := max c.score vc.score } ∧
      (applyVectorCand st cfg acc vc).map Prod.fst = acc.map Prod.fst) := by
  refine ⟨?_, ?_, ?_⟩
  · intro vecResult mention out hout
    unfold retrieve at hout
    cases hml : mergedLex st cfg mention with
    | none =>
        rw [hml] at hout
        simp only [Option.bind_eq_bind, Option.none_bind] at hout
        exact Option.noConfusion hout
    | some ml =>
        rw [hml] at hout
        simp only [Option.bind_eq_bind, Option.some_bind,
          Option.pure_def, Option.some.injEq] at hout
        subst hout
        constructor
        · exact List.length_take_le _ _
        · exact (sorted_pySortedBy candSortKey _).sublist
            (List.take_sublist _ _)
  · intro mention ml hml
    obtain ⟨exCands, normCands, hex, hnorm, rfl⟩ := mergedLex_eq hml
    have hexkeys := buildAll_mkLex_keys hex
    constructor
    · intro cid hcid
      obtain ⟨cobj, h1, h2⟩ :=
        buildAll_mkLex_find (nodup_dedupKeepFirst _) hex hcid
      exact ⟨cobj, h1, assocFind_append_left h2⟩
    · intro cid hcid hnotex
      have hnotkeys : cid ∉ exCands.map Prod.fst := hexkeys ▸ hnotex
      have hmemf : cid ∈ (lookupNormalized st mention).filter
          (fun cid => !(decide (cid ∈ exCands.map Prod.fst))) :=
        List.mem_filter.2 ⟨hcid, by
          simp only [Bool.not_eq_true', decide_eq_false_iff_not]
          exact hnotkeys⟩
      obtain ⟨cobj, h1, h2⟩ := buildAll_mkLex_find
        ((nodup_dedupKeepFirst _).filter _) hnorm hmemf
      refine ⟨cobj, h1, ?_⟩
      rw [assocFind_append_right hnotkeys]
      exact h2
  · intro acc vc c hmin hfind
    have hstep : applyVectorCand st cfg acc vc =
        if c.score < vc.score then
          assocReplace acc vc.candidate_id { c with score := vc.score }
        else acc := by
      unfold applyVectorCand
      rw [if_neg (not_lt.2 hmin), hfind]
    rw [hstep]
    by_cases hlt : c.score < vc.score
    · rw [if_pos hlt]
      refine ⟨?_, assocReplace_keys _ _ _⟩
      rw [max_eq_right (le_of_lt hlt)]
      exact assocReplace_find_self _ hfind
    · rw [if_neg hlt]
      refine ⟨?_, rfl⟩
      rw [max_eq_left (not_lt.1 hlt)]
      exact hfind

/-- Witness for C5: instantiates the three parts of `retrieve_spec` on
`toyStore`, discharging every hypothesis by evaluation. -/
theorem retrieve_spec_witness :
    (((retrieve toyStore toyCfg (some [toyVecCand]) "q".toList).getD
        []).length ≤ toyCfg.top_k ∧
      List.Sorted (keyLe candSortKey)
        ((retrieve toyStore toyCfg (some [toyVecCand]) "q".toList).getD
          [])) ∧
    (∃ cobj, assocFind toyStore.concepts "T1".toList = some cobj ∧
      assocFind ((mergedLex toyStore toyCfg "q".toList).getD [])
          "T1".toList =
        some (lexCandidate toyCfg "lexical_exact".toList
          toyCfg.lexical_exact_score "T1".toList cobj)) ∧
    (∃ cobj, assocFind toyStore.concepts "T2".toList = some cobj ∧
      assocFind ((mergedLex toyStore toyCfg "q".toList).getD [])
          "T2".toList =
        some (lexCandidate toyCfg "lexical_norm".toList
          toyCfg.lexical_norm_score "T2".toList cobj)) ∧
    (assocFind
        (applyVectorCand toyStore toyCfg
          ((mergedLex toyStore toyCfg "q".toList).getD []) toyVecCand)
        toyVecCand.candidate_id =
      some { lexCandidate toyCfg "lexical_exact".toList
          toyCfg.lexical_exact_score "T1".toList toyConceptA with
        score := max (lexCandidate toyCfg "lexical_exact".toList
          toyCfg.lexical_exact_score "T1".toList toyConceptA).score
            toyVecCand.score } ∧
      (applyVectorCand toyStore toyCfg
          ((mergedLex toyStore toyCfg "q".toList).getD [])
          toyVecCand).map Prod.fst =
        ((mergedLex toyStore toyCfg "q".toList).getD []).map Prod.fst) := by
  refine ⟨?_, ?_, ?_, ?_⟩
  · exact (retrieve_spec toyStore toyCfg).1 (some [toyVecCand]) "q".toList
      _ (by decide)
  · exact ((retrieve_spec toyStore toyCfg).2.1 "q".toList _ (by decide)).1
      "T1".toList (by decide)
  · exact ((retrieve_spec toyStore toyCfg).2.1 "q".toList _ (by decide)).2
      "T2".toList (by decide) (by decide)
  · exact (retrieve_spec toyStore toyCfg).2.2
      ((mergedLex toyStore toyCfg "q".toList).getD []) toyVecCand
      (lexCandidate toyCfg "lexical_exact".toList
        toyCfg.lexical_exact_score "T1".toList toyConceptA)
      (by decide) (by decide)

lemma assocFind_mem {κ β : Type} [DecidableEq κ]
    {l : List (κ × β)} {k : κ} {v : β} (h : assocFind l k = some v) :
    (k, v) ∈ l := by
  induction l with
  | nil => simp [assocFind] at h
  | cons p t ih =>
      obtain ⟨k', v'⟩ := p
      rw [assocFind_cons] at h
      by_cases hk : k' = k
      · rw [if_pos hk] at h
        cases h
        subst hk
        exact List.mem_cons_self _ _
      · rw [if_neg hk] at h
        exact List.mem_cons_of_mem _ (ih h)

lemma assocFind_eq_none_iff {κ β : Type} [DecidableEq κ]
    {l : List (κ × β)} {k : κ} :
    assocFind l k = none ↔ k ∉ l.map Prod.fst := by
  induction l with
  | nil => simp [assocFind]
  | cons p t ih =>
      obtain ⟨k', v'⟩ := p
      rw [assocFind_cons, List.map_cons]
      by_cases hk : k' = k
      · subst hk
        rw [if_pos rfl]
        exact iff_of_false (by simp) (by simp)
      · rw [if_neg hk, ih]
        constructor
        · intro h1 hmem
          rcases List.mem_cons.1 hmem with he | hmem2
          · exact hk he.symm
          · exact h1 hmem2
        · intro h1 hmem
          exact h1 (List.mem_cons_of_mem _ hmem)

lemma mem_snd_of_assocFind {κ β : Type} [DecidableEq κ]
    {l : List (κ × β)} {k : κ} {v : β} (h : assocFind l k = some v) :
    v ∈ l.map Prod.snd :=
  List.mem_map.2 ⟨(k, v), assocFind_mem h, rfl⟩

lemma assocReplace_find_other {κ β : Type} [DecidableEq κ]
    {l : List (κ × β)} {k' k : κ} (v : β) (hne : k' ≠ k) :
    assocFind (assocReplace l k' v) k = assocFind l k := by
  induction l with
  | nil => rfl
  | cons p t ih =>
      obtain ⟨k1, v1⟩ := p
      by_cases h1 : k1 = k'
      · rw [assocReplace_cons, if_pos h1, assocFind_cons, assocFind_cons,
          if_neg hne, if_neg (h1 ▸ hne), ih]
      · rw [assocReplace_cons, if_neg h1, assocFind_cons, assocFind_cons,
          ih]

lemma assocFind_append_single_ne {κ β : Type} [DecidableEq κ]
    {l : List (κ × β)} {k' k : κ} (v : β) (hne : k' ≠ k) :
    assocFind (l ++ [(k', v)]) k = assocFind l k := by
  induction l with
  | nil =>
      rw [List.nil_append, assocFind_cons, if_neg hne]
  | cons p t ih =>
      obtain ⟨k1, v1⟩ := p
      rw [show ((k1, v1) :: t) ++ [(k', v)] = (k1, v1) :: (t ++ [(k', v)])
        from rfl, assocFind_cons, assocFind_cons, ih]

lemma mem_assocReplace {κ β : Type} [DecidableEq κ]
    {l : List (κ × β)} {k : κ} {v : β} {p : κ × β}
    (h : p ∈ assocReplace l k v) : p ∈ l ∨ p = (k, v) := by
  unfold assocReplace at h
  rcases List.mem_map.1 h with ⟨q, hq, he⟩
  by_cases hqk : q.1 = k
  · rw [if_pos hqk] at he
    exact Or.inr he.symm
  · rw [if_neg hqk] at he
    exact Or.inl (he ▸ hq)

lemma dedupKey_mkLinkedEntity (e : LinkedEntity) :
    dedupKey (mkLinkedEntity e) = dedupKey e :=
  rfl

lemma mergeEnts_key {base e : LinkedEntity} {k : Str × Str}
    (hb : dedupKey base = k) (he : dedupKey e = k) :
    dedupKey (mergeEnts base e) = k := by
  unfold mergeEnts
  rw [dedupKey_mkLinkedEntity]
  by_cases h : statusRank e.status ≤ statusRank base.status
  · rw [if_pos h]
    exact hb
  · rw [if_neg h]
    exact he

lemma dedupStep_inv {acc : List ((Str × Str) × LinkedEntity)}
    {e : LinkedEntity} (hinv : KeyInv acc) : KeyInv (dedupStep acc e) := by
  unfold dedupStep
  cases hfind : assocFind acc (dedupKey e) with
  | none =>
      intro p hp
      rcases List.mem_append.1 hp with h1 | h2
      · exact hinv p h1
      · rw [List.mem_singleton.1 h2]
  | some base =>
      intro p hp
      rcases mem_assocReplace hp with h1 | h2
      · exact hinv p h1
      · rw [h2]
        exact mergeEnts_key (hinv (dedupKey e, base) (assocFind_mem hfind))
          rfl

lemma foldl_dedupStep_inv :
    ∀ {l : List LinkedEntity} {acc}, KeyInv acc →
      KeyInv (l.foldl dedupStep acc) := by
  intro l
  induction l with
  | nil => exact fun h => h
  | cons e t ih =>
      intro acc hinv
      exact ih (dedupStep_inv hinv)

lemma foldl_dedupStep_find_untouched :
    ∀ {l : List LinkedEntity} {acc} {k : Str × Str},
      (∀ x ∈ l, dedupKey x ≠ k) →
      assocFind (l.foldl dedupStep acc) k = assocFind acc k := by
  intro l
  induction l with
  | nil => intro acc k _; rfl
  | cons e t ih =>
      intro acc k h
      have hek : dedupKey e ≠ k := h e (List.mem_cons_self _ _)
      rw [List.foldl_cons,
        ih (fun x hx => h x (List.mem_cons_of_mem _ hx))]
      unfold dedupStep
      cases hfind : assocFind acc (dedupKey e) with
      | none => exact assocFind_append_single_ne _ hek
      | some base => exact assocReplace_find_other _ hek

lemma dedupStep_eq_insert {acc : List ((Str × Str) × LinkedEntity)}
    {e : LinkedEntity} (hfind : assocFind acc (dedupKey e) = none) :
    dedupStep acc e = acc ++ [(dedupKey e, e)] := by
  unfold dedupStep
  rw [hfind]

lemma dedupStep_eq_merge {acc : List ((Str × Str) × LinkedEntity)}
    {e base : LinkedEntity}
    (hfind : assocFind acc (dedupKey e) = some base) :
    dedupStep acc e = assocReplace acc (dedupKey e) (mergeEnts base e) := by
  unfold dedupStep
  rw [hfind]

lemma foldl_dedupStep_keys :
    ∀ {l : List LinkedEntity} {acc},
      (l.foldl dedupStep acc).map Prod.fst =
        acc.map Prod.fst ++
          dedupKeepFirstAux (acc.map Prod.fst) (l.map dedupKey) := by
  intro l
  induction l with
  | nil =>
      intro acc
      simp [dedupKeepFirstAux]
  | cons e t ih =>
      intro acc
      rw [List.foldl_cons, ih, List.map_cons]
      cases hfind : assocFind acc (dedupKey e) with
      | none =>
          have hk : dedupKey e ∉ acc.map Prod.fst :=
            assocFind_eq_none_iff.1 hfind
          rw [dedupStep_eq_insert hfind]
          simp only [dedupKeepFirstAux, if_neg hk, List.map_append]
          simp
      | some base =>
          have hk : dedupKey e ∈ acc.map Prod.fst :=
            List.mem_map.2 ⟨(dedupKey e, base), assocFind_mem hfind, rfl⟩
          rw [dedupStep_eq_merge hfind]
          simp only [dedupKeepFirstAux, if_pos hk, assocReplace_keys]

lemma countP_key_eq_zero {A : List ((Str × Str) × LinkedEntity)}
    {k : Str × Str} (hinv : KeyInv A) (hk : k ∉ A.map Prod.fst) :
    (A.map Prod.snd).countP (fun x => decide (dedupKey x = k)) = 0 := by
  rw [List.countP_eq_zero]
  intro x hx
  rcases List.mem_map.1 hx with ⟨p, hp, rfl⟩
  have := hinv p hp
  simp only [decide_eq_true_eq]
  intro he
  exact hk (List.mem_map.2 ⟨p, hp, this ▸ he⟩)

lemma countP_key_of_inv :
    ∀ {A : List ((Str × Str) × LinkedEntity)} {k : Str × Str},
      KeyInv A → (A.map Prod.fst).Nodup → k ∈ A.map Prod.fst →
      (A.map Prod.snd).countP (fun x => decide (dedupKey x = k)) = 1 := by
  intro A
  induction A with
  | nil => intro k _ _ hk; simp at hk
  | cons p t ih =>
      intro k hinv hnd hk
      obtain ⟨k', v⟩ := p
      rw [List.map_cons] at hnd hk
      have hv : dedupKey v = k' := hinv (k', v) (List.mem_cons_self _ _)
      rw [List.map_cons, List.countP_cons]
      have hinvt : KeyInv t := fun q hq => hinv q (List.mem_cons_of_mem _ hq)
      have hndt := (List.nodup_cons.1 hnd).2
      by_cases hkk : k' = k
      · subst hkk
        have hnott : k' ∉ t.map Prod.fst := (List.nodup_cons.1 hnd).1
        rw [countP_key_eq_zero hinvt hnott]
        simp [hv]
      · have hkt : k ∈ t.map Prod.fst := by
          rcases List.mem_cons.1 hk with h1 | h2
          · exact absurd h1.symm hkk
          · exact h2
        rw [ih hinvt hndt hkt]
        simp [hv, hkk]

lemma unionProv_cons (base : List FieldOffsets) (p : FieldOffsets)
    (ext : List FieldOffsets) :
    unionProv base (p :: ext) =
      unionProv (if p ∈ base then base else base ++ [p]) ext :=
  rfl

lemma unionProv_exists_suffix :
    ∀ (ext base : List FieldOffsets),
      ∃ suf, unionProv base ext = base ++ suf := by
  intro ext
  induction ext with
  | nil => exact fun base => ⟨[], by simp [unionProv]⟩
  | cons p t ih =>
      intro base
      rw [unionProv_cons]
      by_cases hp : p ∈ base
      · rw [if_pos hp]
        exact ih base
      · rw [if_neg hp]
        obtain ⟨suf, hsuf⟩ := ih (base ++ [p])
        exact ⟨[p] ++ suf, by rw [hsuf, List.append_assoc]⟩

lemma mem_unionProv_left {base ext : List FieldOffsets} {x : FieldOffsets}
    (h : x ∈ base) : x ∈ unionProv base ext := by
  obtain ⟨suf, hsuf⟩ := unionProv_exists_suffix ext base
  rw [hsuf]
  exact List.mem_append.2 (Or.inl h)

lemma unionProv_eq_filter :
    ∀ {ext base : List FieldOffsets}, ext.Nodup →
      unionProv base ext =
        base ++ ext.filter (fun p => decide (p ∉ base)) := by
  intro ext
  induction ext with
  | nil => intro base _; simp [unionProv]
  | cons p t ih =>
      intro base hnd
      obtain ⟨hp, hndt⟩ := List.nodup_cons.1 hnd
      rw [unionProv_cons, List.filter_cons]
      by_cases hpb : p ∈ base
      · rw [if_pos hpb, ih hndt]
        simp [hpb]
      · rw [if_neg hpb, ih hndt]
        have hfeq : t.filter (fun q => decide (q ∉ base ++ [p])) =
            t.filter (fun q => decide (q ∉ base)) := by
          apply List.filter_congr
          intro q hq
          have hqp : q ≠ p := fun he => hp (he ▸ hq)
          simp only [decide_eq_decide, List.mem_append,
            List.mem_singleton]
          constructor
          · intro h1 h2
            exact h1 (Or.inl h2)
          · intro h1 h2
            rcases h2 with h3 | h3
            · exact h1 h3
            · exact hqp h3
        rw [hfeq]
        simp [hpb, List.append_assoc]

lemma fixProvenances_of_mem {offsets : FieldOffsets}
    {prov : List FieldOffsets} (h : offsets ∈ prov) :
    fixProvenances offsets prov = prov := by
  unfold fixProvenances
  rw [if_neg (List.ne_nil_of_mem h), if_pos h]

lemma mergeEnts_equal_rank {e1 e2 : LinkedEntity}
    (hrank : statusRank e2.status ≤ statusRank e1.status)
    (hoff : e1.offsets ∈ e1.provenances) :
    mergeEnts e1 e2 =
      { e1 with provenances := unionProv e1.provenances e2.provenances } := by
  unfold mergeEnts mkLinkedEntity
  rw [if_pos hrank]
  have : fixProvenances e1.offsets (unionProv e1.provenances e2.provenances)
      = unionProv e1.provenances e2.provenances :=
    fixProvenances_of_mem (mem_unionProv_left hoff)
  simp only [this]

/-- C2: two RESOLVED entities with the same label and linked id (and no
other entity of the input sharing their dedup key) are merged by
`dedup_entities` into exactly one output entity; that entity keeps the
earlier occurrence's fields and carries the order-preserving union of the
two provenance lists; and the output is ordered by first occurrence of
the dedup key. -/
theorem dedup_merges_resolved_pair
    (pre mid post : List LinkedEntity) (e1 e2 : LinkedEntity) (lid : Str)
    (h1r : e1.status = .RESOLVED) (h2r : e2.status = .RESOLVED)
    (h1id : e1.linked_id = some lid) (h2id : e2.linked_id = some lid)
    (hlid : lid ≠ []) (hlbl : e1.label = e2.label)
    (hoff : e1.offsets ∈ e1.provenances) (hnd2 : e2.provenances.Nodup)
    (hothers : ∀ x ∈ pre ++ mid ++ post, dedupKey x ≠ dedupKey e1) :
    ((dedupEntities (pre ++ e1 :: (mid ++ e2 :: post))).countP
        (fun x => decide (dedupKey x = dedupKey e1)) = 1) ∧
    mergedPairEntity e1 e2 ∈
      dedupEntities (pre ++ e1 :: (mid ++ e2 :: post)) ∧
    dedupKey (mergedPairEntity e1 e2) = dedupKey e1 ∧
    (dedupEntities (pre ++ e1 :: (mid ++ e2 :: post))).map dedupKey =
      dedupKeepFirst ((pre ++ e1 :: (mid ++ e2 :: post)).map dedupKey) := by
  have hprepost : ∀ x ∈ pre, dedupKey x ≠ dedupKey e1 :=
    fun x hx => hothers x (by simp [hx])
  have hmidk : ∀ x ∈ mid, dedupKey x ≠ dedupKey e1 :=
    fun x hx => hothers x (by simp [hx])
  have hpostk : ∀ x ∈ post, dedupKey x ≠ dedupKey e1 :=
    fun x hx => hothers x (by simp [hx])
  have hk1 : dedupKey e1 = (e1.label, "ID::".toList ++ lid) := by
    unfold dedupKey
    rw [if_pos ⟨h1r, by simp [h1id, optStrTruthy, hlid]⟩, h1id]
    rfl
  have hk2' : dedupKey e2 = (e2.label, "ID::".toList ++ lid) := by
    unfold dedupKey
    rw [if_pos ⟨h2r, by simp [h2id, optStrTruthy, hlid]⟩, h2id]
    rfl
  have hk2 : dedupKey e2 = dedupKey e1 := by
    rw [hk2', hk1, hlbl]
  -- the fold decomposed around e1 and e2
  have hsplit : pre ++ e1 :: (mid ++ e2 :: post) =
      (pre ++ [e1]) ++ ((mid ++ [e2]) ++ post) := by
    simp
  have hA0 : assocFind (pre.foldl dedupStep []) (dedupKey e1) = none := by
    rw [foldl_dedupStep_find_untouched hprepost]
    rfl
  have hA1 : (pre ++ [e1]).foldl dedupStep [] =
      pre.foldl dedupStep [] ++ [(dedupKey e1, e1)] := by
    rw [List.foldl_append, List.foldl_cons, List.foldl_nil]
    exact dedupStep_eq_insert hA0
  have hA1find : assocFind ((pre ++ [e1]).foldl dedupStep [])
      (dedupKey e1) = some e1 := by
    rw [hA1, assocFind_append_right (assocFind_eq_none_iff.1 hA0),
      assocFind_cons, if_pos rfl]
  have hA2find : assocFind
      ((mid.foldl dedupStep ((pre ++ [e1]).foldl dedupStep [])))
      (dedupKey e1) = some e1 := by
    rw [foldl_dedupStep_find_untouched hmidk]
    exact hA1find
  have hrank : statusRank e2.status ≤ statusRank e1.status := by
    rw [h1r, h2r]
  have hmerge : mergeEnts e1 e2 =
      { e1 with provenances := unionProv e1.provenances e2.provenances } :=
    mergeEnts_equal_rank hrank hoff
  have hA3 : ((mid ++ [e2]).foldl dedupStep
        ((pre ++ [e1]).foldl dedupStep [])) =
      assocReplace
        (mid.foldl dedupStep ((pre ++ [e1]).foldl dedupStep []))
        (dedupKey e1)
        (mergeEnts e1 e2) := by
    rw [List.foldl_append, List.foldl_cons, List.foldl_nil]
    rw [show dedupStep
        (mid.foldl dedupStep ((pre ++ [e1]).foldl dedupStep [])) e2 =
      assocReplace
        (mid.foldl dedupStep ((pre ++ [e1]).foldl dedupStep []))
        (dedupKey e2) (mergeEnts e1 e2) from
      dedupStep_eq_merge (by rw [hk2]; exact hA2find), hk2]
  have hA4find : assocFind
      ((pre ++ e1 :: (mid ++ e2 :: post)).foldl dedupStep [])
      (dedupKey e1) = some (mergeEnts e1 e2) := by
    rw [hsplit, List.foldl_append, List.foldl_append,
      foldl_dedupStep_find_untouched hpostk, hA3]
    exact assocReplace_find_self _ hA2find
  have hfilter : unionProv e1.provenances e2.provenances =
      e1.provenances ++ e2.provenances.filter
        (fun p => decide (p ∉ e1.provenances)) :=
    unionProv_eq_filter hnd2
  have hmerged_eq : mergeEnts e1 e2 = mergedPairEntity e1 e2 := by
    unfold mergedPairEntity
    rw [hmerge, hfilter]
  have hinv : KeyInv ((pre ++ e1 :: (mid ++ e2 :: post)).foldl dedupStep
      []) :=
    foldl_dedupStep_inv (fun p hp => absurd hp (List.not_mem_nil p))
  have hkeys : ((pre ++ e1 :: (mid ++ e2 :: post)).foldl dedupStep
      []).map Prod.fst =
      dedupKeepFirst ((pre ++ e1 :: (mid ++ e2 :: post)).map dedupKey) := by
    rw [foldl_dedupStep_keys]
    rfl
  have hknodup : (((pre ++ e1 :: (mid ++ e2 :: post)).foldl dedupStep
      []).map Prod.fst).Nodup := by
    rw [hkeys]
    exact nodup_dedupKeepFirst _
  have hkmem : dedupKey e1 ∈
      ((pre ++ e1 :: (mid ++ e2 :: post)).foldl dedupStep []).map
        Prod.fst :=
    List.mem_map.2 ⟨(dedupKey e1, mergeEnts e1 e2),
      assocFind_mem hA4find, rfl⟩
  refine ⟨?_, ?_, ?_, ?_⟩
  · exact countP_key_of_inv hinv hknodup hkmem
  · rw [← hmerged_eq]
    exact mem_snd_of_assocFind hA4find
  · rfl
  · unfold dedupEntities
    rw [List.map_map,
      show (dedupKey ∘ Prod.snd) = fun p :
        (Str × Str) × LinkedEntity => dedupKey p.2 from rfl, ← hkeys]
    exact List.map_congr_left (fun p hp => hinv p hp)

/-- Witness for C2 at spec scenario 5. -/
theorem dedup_merges_resolved_pair_witness :
    ((dedupEntities ([] ++ entC2a :: ([] ++ entC2b :: []))).countP
        (fun x => decide (dedupKey x = dedupKey entC2a)) = 1) ∧
    mergedPairEntity entC2a entC2b ∈
      dedupEntities ([] ++ entC2a :: ([] ++ entC2b :: [])) ∧
    dedupKey (mergedPairEntity entC2a entC2b) = dedupKey entC2a ∧
    (dedupEntities ([] ++ entC2a :: ([] ++ entC2b :: []))).map dedupKey =
      dedupKeepFirst (([] ++ entC2a :: ([] ++ entC2b :: [])).map
        dedupKey) :=
  dedup_merges_resolved_pair [] [] [] entC2a entC2b "DOID:1324".toList
    (by decide) (by decide) (by decide) (by decide) (by decide)
    (by decide) (by decide) (by decide) (by decide)

/-- C1 fails on the code: linking the two "foo" mentions with negation
enabled and a retriever that returns no candidates yields REJECTED (field
"a") then UNRESOLVED (field "b"); dedup merges them under the same
surface-form key, keeps the higher-ranked UNRESOLVED entity, and prepends
the earlier provenances — so the merged entity has `offsets` in field "b"
but `provenances[0]` in field "a".  The `field_key == source_field` half
of the invariant holds; `provenances[0] == offsets` does not, although
`_validate_policy`'s own comment promises the primary offsets first. -/
theorem linkMentions_provenance_head_violation :
    ∃ e ∈ linkMentions rawC1 [m1C1, m2C1] (fun _ => []) dummyRerank cfgC1,
      e.offsets.field_key = e.source_field ∧
      e.provenances.head? ≠ some e.offsets := by
  decide

/-- C7: `group_entities_by_label` lists its label keys in strictly
ascending order; within each label the entities are sorted by
`(-status_rank, linked_id or "", source_field, offsets.start,
offsets.end, surface_form)`; and every entity's `top_candidates` is
sorted by `(-score, candidate_id)`. -/
theorem groupEntitiesByLabel_spec (entities : List LinkedEntity) :
    List.Chain' (· < ·) ((groupEntitiesByLabel entities).map Prod.fst) ∧
    ∀ g ∈ groupEntitiesByLabel entities,
      List.Sorted (keyLe exporterKey) g.2 ∧
      ∀ e ∈ g.2, List.Sorted (keyLe candSortKey) e.top_candidates := by
  constructor
  · unfold groupEntitiesByLabel
    rw [List.map_map]
    rw [show (Prod.fst ∘ fun lbl : Str =>
      (lbl, sortEntities (entities.filter
        (fun e => decide (e.label = lbl))))) = id from rfl, List.map_id]
    apply List.Pairwise.chain'
    apply List.Sorted.lt_of_le
    · exact sorted_pySortedBy _ _
    · exact ((List.perm_insertionSort _ _).nodup_iff).2
        (nodup_dedupKeepFirst _)
  · intro g hg
    unfold groupEntitiesByLabel at hg
    rcases List.mem_map.1 hg with ⟨lbl, _, rfl⟩
    refine ⟨sorted_pySortedBy _ _, ?_⟩
    intro e he
    unfold sortEntities at he
    rw [mem_pySortedBy] at he
    rcases List.mem_map.1 he with ⟨e', _, rfl⟩
    rw [show (sortCandidatesInEntity e').top_candidates =
      pySortedBy candSortKey e'.top_candidates from rfl]
    exact sorted_pySortedBy _ _

/-- Witness for C7 on a two-label input with deliberately unsorted
candidate lists. -/
theorem groupEntitiesByLabel_spec_witness :
    List.Chain' (· < ·)
      ((groupEntitiesByLabel [entC7x, entC7y]).map Prod.fst) ∧
    (List.Sorted (keyLe exporterKey)
        ((groupEntitiesByLabel [entC7x, entC7y]).getD 0
          (([], []) : Str × List LinkedEntity)).2 ∧
      ∀ e ∈ ((groupEntitiesByLabel [entC7x, entC7y]).getD 0
          (([], []) : Str × List LinkedEntity)).2,
        List.Sorted (keyLe candSortKey) e.top_candidates) :=
  ⟨(groupEntitiesByLabel_spec [entC7x, entC7y]).1,
    (groupEntitiesByLabel_spec [entC7x, entC7y]).2 _ (by decide)⟩

/-- C4 as stated is false of the code: the build performs no rename at
all (no temporary sibling), and interrupting it after its first write
leaves a directory that is neither empty nor complete — a partially
written index directory is visible. -/
theorem vectorIndexBuild_not_atomic :
    (buildPersistOps.all (fun op => ! op.isRename) = true) ∧
    visibleAfter (buildPersistOps.take 1) ≠ [] ∧
    visibleAfter (buildPersistOps.take 1) ≠ visibleAfter buildPersistOps := by
  decide

/-- C4 amended: the build writes the four artifacts directly to their
final paths in the order embeddings.npy, concept_ids.json, faiss.index,
meta.json, with no temporary sibling and no rename; because meta.json is
written last, a fresh-directory build interrupted at any point before
completion leaves a directory that the reuse check cannot accept, while
the completed build passes the existence check. -/
theorem vectorIndexBuild_direct_writes_meta_last :
    buildPersistOps =
      [FsOp.write "embeddings.npy".toList,
       FsOp.write "concept_ids.json".toList,
       FsOp.write "faiss.index".toList,
       FsOp.write "meta.json".toList] ∧
    (buildPersistOps.all (fun op => ! op.isRename) = true) ∧
    ((List.range buildPersistOps.length).all
      (fun n =>
        ! reuseFilesPresent (visibleAfter (buildPersistOps.take n))) =
      true) ∧
    reuseFilesPresent (visibleAfter buildPersistOps) = true := by
  decide

end GeoCleaner
